import Mathlib

/-!
# ci-operator step graph: topological sort, digraph dump and image tagging steps

A shallow embedding of `pkg/api/helpers.go`, `pkg/steps/output_image_tag.go`,
`pkg/steps/clusterinstall/clusterinstall.go` and of the helper `stepListsEqual` of
`pkg/defaults/defaults_test.go`.

* Go pointers to `StepNode` are indices into a finite heap (`Fin n`), so that the
  `Children` edges may share nodes and may form cycles, as Go pointers can.
* A `Step` interface value carries an `id` standing for its identity: two interface
  values holding pointers are `==` in Go exactly when they hold the same pointer.
* The `for len(nodes) > 0` loop of `TopologicalSort` is run with fuel; `none` stands for
  running out of fuel, and the fuel that `TopologicalSort` passes is shown to suffice.
-/

namespace CiOperator

/-! ## Link model -/

/-- The Go type `api.ImageStreamTagReference`. -/
structure ImageStreamTagReference where
  Cluster : String
  Namespace : String
  Name : String
  Tag : String
  As : String
deriving DecidableEq, Repr

/-- The Go type `api.PipelineImageStreamTagReference`, a string. -/
abbrev PipelineImageStreamTagReference := String

/-- The link variants that the steps of this repository construct, named after their
constructor functions in package `api`. -/
inductive StepLink where
  | InternalImageLink (image : PipelineImageStreamTagReference)
  | ExternalImageLink (image : ImageStreamTagReference)
  | ReleaseImagesLink
  | ReleasePayloadImageLink (tag : PipelineImageStreamTagReference)
deriving DecidableEq, Repr

/-- Modelled from the spec: `Matches(need, have)` of the link model (section 4.1), whose
source file is not part of the sources at hand. Links of different kinds never match; an
internal image link matches by pipeline tag, an external one by image stream, namespace
and tag (the alias is not part of the identity), the whole-release link matches the
whole-release link, and a release payload link matches by its tag. -/
def Matches : StepLink → StepLink → Bool
  | .InternalImageLink a, .InternalImageLink b => a == b
  | .ExternalImageLink a, .ExternalImageLink b =>
      a.Name == b.Name && a.Namespace == b.Namespace && a.Tag == b.Tag
  | .ReleaseImagesLink, .ReleaseImagesLink => true
  | .ReleasePayloadImageLink a, .ReleasePayloadImageLink b => a == b
  | _, _ => false

/-- Modelled from the spec: `HasAllLinks(needs, haves)` (section 4.1): every needed link
is matched by one of the links at hand. -/
def HasAllLinks (needles haystack : List StepLink) : Bool :=
  needles.all fun needle => haystack.any fun hay => Matches needle hay

/-- Modelled from the spec: `HasAnyLinks(needs, haves)` (section 4.1): some needed link
is matched by one of the links at hand. -/
def HasAnyLinks (steps candidates : List StepLink) : Bool :=
  candidates.any fun candidate => steps.any fun step => Matches step candidate

/-! ## Steps and nodes -/

/-- The part of an `api.Step` interface value that the graph engine looks at. `id` is the
identity of the value (the pointer it holds), `TypeName` what `%T` prints for it. -/
structure Step where
  id : Nat
  TypeName : String
  Name : String
  Requires : List StepLink
  Creates : List StepLink
deriving DecidableEq, Repr

/-- The Go type `api.StepNode`; a `*StepNode` is an index into a heap of `n` nodes. -/
structure StepNode (n : Nat) where
  Step : Step
  Children : List (Fin n)

/-- The nodes that exist: what each `*StepNode` points to. -/
abbrev Graph (n : Nat) := Fin n → StepNode n

/-! ## TopologicalSort -/

/-- The variables of `TopologicalSort` that one pass over `nodes` reads and writes. -/
structure PassState (n : Nat) where
  sortedNodes : List (Fin n)
  satisfied : List StepLink
  seen : List Step
  waiting : List (Fin n)
  changed : Bool

/-- The inner loop over `node.Children`: a child whose step is not in `seen` is appended
to `waiting`. -/
def visitChildren {n : Nat} (g : Graph n) (seen : List Step) (waiting : List (Fin n))
    (children : List (Fin n)) : List (Fin n) :=
  children.foldl (fun w child => if (g child).Step ∈ seen then w else w ++ [child]) waiting

/-- One iteration of `for _, node := range nodes`. -/
def visitNode {n : Nat} (g : Graph n) (st : PassState n) (node : Fin n) : PassState n :=
  let waiting := visitChildren g st.seen st.waiting (g node).Children
  if (g node).Step ∈ st.seen then
    { st with waiting := waiting }
  else if !HasAllLinks (g node).Step.Requires st.satisfied then
    { st with waiting := waiting ++ [node] }
  else
    { sortedNodes := st.sortedNodes ++ [node]
      satisfied := st.satisfied ++ (g node).Step.Creates
      seen := (g node).Step :: st.seen
      waiting := waiting
      changed := true }

/-- One pass of the outer loop: `changed` and `waiting` start afresh, then every node of
`nodes` is visited in order. -/
def runPass {n : Nat} (g : Graph n) (sortedNodes : List (Fin n)) (satisfied : List StepLink)
    (seen : List Step) (nodes : List (Fin n)) : PassState n :=
  nodes.foldl (visitNode g)
    { sortedNodes := sortedNodes, satisfied := satisfied, seen := seen, waiting := [],
      changed := false }

/-- A line written by `log.Printf("step <%T> is missing dependencies: %s", ...)`: the step
whose type is printed and the links whose `LinkNames` are joined. -/
structure LogLine where
  step : Step
  missing : List StepLink
deriving DecidableEq, Repr

/-- The loop over `node.Step.Requires()` of a stuck node: `missing` accumulates the links
that `satisfied` does not match, and one line is logged after every link. -/
def missingLines (step : Step) (satisfied : List StepLink) :
    List StepLink → List StepLink → List LogLine
  | [], _ => []
  | link :: rest, missing =>
      let missing := if !HasAllLinks [link] satisfied then missing ++ [link] else missing
      { step := step, missing := missing } :: missingLines step satisfied rest missing

/-- The lines logged for all waiting nodes when the sort gives up. -/
def missingLog {n : Nat} (g : Graph n) (satisfied : List StepLink) (waiting : List (Fin n)) :
    List LogLine :=
  waiting.flatMap fun node => missingLines (g node).Step satisfied (g node).Step.Requires []

/-- What `TopologicalSort` returns (`nodes`, `err`; a nil slice is `[]`, a nil error is
`none`) together with the lines it logged. -/
structure SortOutcome (n : Nat) where
  nodes : List (Fin n)
  err : Option String
  log : List LogLine
deriving DecidableEq

/-- The outer loop `for len(nodes) > 0`, with fuel for the number of passes. -/
def sortLoop {n : Nat} (g : Graph n) :
    Nat → List (Fin n) → List (Fin n) → List StepLink → List Step → Option (SortOutcome n)
  | _, [], sortedNodes, _, _ => some { nodes := sortedNodes, err := none, log := [] }
  | 0, _ :: _, _, _, _ => none
  | fuel + 1, node :: rest, sortedNodes, satisfied, seen =>
      let st := runPass g sortedNodes satisfied seen (node :: rest)
      if !st.changed && st.waiting.length > 0 then
        some { nodes := [], err := some "steps are missing dependencies",
               log := missingLog g st.satisfied st.waiting }
      else
        sortLoop g fuel st.waiting st.sortedNodes st.satisfied st.seen

/-- The function `TopologicalSort` of `pkg/api/helpers.go`. Every pass but the last puts a
step of one of the `n` nodes into `seen` for the first time, so `n + 1` passes suffice. -/
def TopologicalSort {n : Nat} (g : Graph n) (nodes : List (Fin n)) : Option (SortOutcome n) :=
  sortLoop g (n + 1) nodes [] [] []

/-! ## Notions used to state and prove the properties of the sort -/

/-- The nodes that one pass appends to `sortedNodes`, computed on their own: a node is
taken when its step is not yet seen and its requirements are satisfied by what was
satisfied before the pass and what the nodes taken before it create. -/
def emittedBy {n : Nat} (g : Graph n) (satisfied : List StepLink) (seen : List Step) :
    List (Fin n) → List (Fin n)
  | [] => []
  | node :: rest =>
      if (g node).Step ∈ seen then emittedBy g satisfied seen rest
      else if !HasAllLinks (g node).Step.Requires satisfied then emittedBy g satisfied seen rest
      else node :: emittedBy g (satisfied ++ (g node).Step.Creates) ((g node).Step :: seen) rest

/-- Every requirement of every node of `order` is matched by a link that a node strictly
before it in `order` creates. -/
def ProducersFirst {n : Nat} (g : Graph n) (order : List (Fin n)) : Prop :=
  ∀ pre e post, order = pre ++ e :: post → ∀ link ∈ (g e).Step.Requires,
    ∃ p ∈ pre, ∃ c ∈ (g p).Step.Creates, Matches link c = true

/-- The number of nodes of the heap whose step is not in `seen`. -/
def unseenCount {n : Nat} (g : Graph n) (seen : List Step) : Nat :=
  (Finset.univ.filter fun i : Fin n => (g i).Step ∉ seen).card

/-! ## Concrete steps and graphs -/

/-- A step with the given identity, name, requirements and creations. -/
def mkStep (id : Nat) (name : String) (requires creates : List StepLink) : Step :=
  { id := id, TypeName := "*steps.testStep", Name := name, Requires := requires,
    Creates := creates }

/-- The steps of the literal example: `Source` requires what `Root` creates. -/
def exampleSteps : List Step :=
  [ mkStep 0 "Source" [.InternalImageLink "root"] [.InternalImageLink "src"],
    mkStep 1 "Root" [] [.InternalImageLink "root"] ]

/-- The graph of `exampleSteps`: node 1 (`Root`) has node 0 (`Source`) as its child. -/
def exampleGraph : Graph 2 := fun i =>
  match i with
  | ⟨0, _⟩ =>
      ⟨mkStep 0 "Source" [.InternalImageLink "root"] [.InternalImageLink "src"], []⟩
  | _ => ⟨mkStep 1 "Root" [] [.InternalImageLink "root"], [0]⟩

/-! ## Building the graph of a step list -/

/-- Step `a` requires a link that another step `b` creates: `a` consumes, `b` produces. -/
def DependsOn (a b : Step) : Bool :=
  decide (a ≠ b) && HasAnyLinks a.Requires b.Creates

/-- Modelled from the spec: the nodes that `BuildGraph(steps)` allocates (section 4.3), one
per entry of the step list; for every ordered pair of steps `A ≠ B` with
`HasAnyLinks(A.Requires(), B.Creates())`, `A` is a child of `B`. The source of `BuildGraph`
is not part of the sources at hand. -/
def buildNodes (steps : List Step) : Graph steps.length := fun i =>
  { Step := steps.get i
    Children := (List.finRange steps.length).filter fun j =>
      DependsOn (steps.get j) (steps.get i) }

/-- Modelled from the spec: the roots that `BuildGraph(steps)` returns (section 4.3): the
nodes of the steps that have no producer for any of their requirements among the other
steps. -/
def BuildGraph (steps : List Step) : List (Fin steps.length) :=
  (List.finRange steps.length).filter fun i =>
    (List.finRange steps.length).all fun j => !DependsOn (steps.get i) (steps.get j)

/-- Every node whose step is not seen yet and which is a root, or has a producer whose
step is seen, is in `nodes`. -/
def Frontier {n : Nat} (g : Graph n) (seen : List Step) (nodes : List (Fin n)) : Prop :=
  ∀ i, (g i).Step ∉ seen →
    ((∀ j, DependsOn (g i).Step (g j).Step = false) → i ∈ nodes)
    ∧ (∀ j, DependsOn (g i).Step (g j).Step = true → (g j).Step ∈ seen → i ∈ nodes)

/-- Node `x` is in `nodes` or can be reached from a node of `nodes` through `Children`. -/
def Reachable {n : Nat} (g : Graph n) (nodes : List (Fin n)) (x : Fin n) : Prop :=
  ∃ y ∈ nodes, Relation.ReflTransGen (fun a b => b ∈ (g a).Children) y x

/-- What holds at the start of every pass when the steps in `T` can never be satisfied. -/
structure StuckInv {n : Nat} (g : Graph n) (input : List (Fin n)) (T : Step → Prop) (x : Fin n)
    (nodes sorted : List (Fin n)) (satisfied : List StepLink) (seen : List Step) : Prop where
  nodes_reachable : ∀ w ∈ nodes, Reachable g input w
  sorted_ok : ∀ p ∈ sorted, Reachable g input p ∧ ¬ T (g p).Step
  satisfied_eq : satisfied = sorted.flatMap fun p => (g p).Step.Creates
  seen_iff : ∀ s, s ∈ seen ↔ s ∈ sorted.map fun p => (g p).Step
  path : ∃ w ∈ nodes, ∃ x', (g x').Step = (g x).Step
    ∧ Relation.ReflTransGen (fun a b => b ∈ (g a).Children ∧ (g b).Step ∉ seen) w x'

/-- Four steps in which two steps create the same link: `A` and `C` both create the link
that `B` requires, and `C` itself waits for what `D` creates. -/
def fanInSteps : List Step :=
  [ mkStep 0 "A" [] [.InternalImageLink "l"],
    mkStep 1 "D" [] [.InternalImageLink "m"],
    mkStep 2 "B" [.InternalImageLink "l"] [],
    mkStep 3 "C" [.InternalImageLink "m"] [.InternalImageLink "l"] ]

/-- A chain of three nodes with distinct steps, `Y → Q → X`, in which `X` requires a link
that no step creates. -/
def missingGraph : Graph 3 := fun i =>
  match i with
  | ⟨0, _⟩ => ⟨mkStep 0 "Y" [] [], [1]⟩
  | ⟨1, _⟩ => ⟨mkStep 1 "Q" [] [], [2]⟩
  | _ => ⟨mkStep 2 "X" [.InternalImageLink "foo"] [], []⟩

/-- The chain of `missingGraph` with one more node, node 3, that carries the same step as
node 1 (`Q`) but has no children. -/
def sharedStepGraph : Graph 4 := fun i =>
  match i with
  | ⟨0, _⟩ => ⟨mkStep 0 "Y" [] [], [1]⟩
  | ⟨1, _⟩ => ⟨mkStep 1 "Q" [] [], [2]⟩
  | ⟨2, _⟩ => ⟨mkStep 2 "X" [.InternalImageLink "foo"] [], []⟩
  | _ => ⟨mkStep 1 "Q" [] [], []⟩

/-- A chain `Y → Q` that leads into the cycle `C1 ⇄ C2`: `C1` requires what only `C2`
creates and `C2` requires what only `C1` creates. -/
def cycleGraph : Graph 4 := fun i =>
  match i with
  | ⟨0, _⟩ => ⟨mkStep 0 "Y" [] [], [1]⟩
  | ⟨1, _⟩ => ⟨mkStep 1 "Q" [] [], [2]⟩
  | ⟨2, _⟩ => ⟨mkStep 2 "C1" [.InternalImageLink "two"] [.InternalImageLink "one"], [3]⟩
  | _ => ⟨mkStep 3 "C2" [.InternalImageLink "one"] [.InternalImageLink "two"], [2]⟩

/-- The graph `cycleGraph` with one more node, node 4, that carries the same step as node 1
(`Q`) but has no children. -/
def sharedStepCycleGraph : Graph 5 := fun i =>
  match i with
  | ⟨0, _⟩ => ⟨mkStep 0 "Y" [] [], [1]⟩
  | ⟨1, _⟩ => ⟨mkStep 1 "Q" [] [], [2]⟩
  | ⟨2, _⟩ => ⟨mkStep 2 "C1" [.InternalImageLink "two"] [.InternalImageLink "one"], [3]⟩
  | ⟨3, _⟩ => ⟨mkStep 3 "C2" [.InternalImageLink "one"] [.InternalImageLink "two"], [2]⟩
  | _ => ⟨mkStep 1 "Q" [] [], []⟩

/-- One node whose step `A` requires the link `internal-image(foo)`, which nothing
creates. -/
def lonelyGraph : Graph 1 := fun _ =>
  ⟨mkStep 0 "A" [.InternalImageLink "foo"] [], []⟩

/-- The text `needle` occurs in the text `hay`. -/
def Mentions (hay needle : String) : Prop := needle.toList <:+: hay.toList

instance (hay needle : String) : Decidable (Mentions hay needle) := by
  unfold Mentions; infer_instance

/-- The passes that the loop of `TopologicalSort` makes: for every pass, the node list it
ranges over and the nodes it appends to `sortedNodes`. -/
def sortPasses {n : Nat} (g : Graph n) :
    Nat → List (Fin n) → List (Fin n) → List StepLink → List Step →
      List (List (Fin n) × List (Fin n))
  | _, [], _, _, _ => []
  | 0, _ :: _, _, _, _ => []
  | fuel + 1, node :: rest, sortedNodes, satisfied, seen =>
      let st := runPass g sortedNodes satisfied seen (node :: rest)
      (node :: rest, st.sortedNodes.drop sortedNodes.length) ::
        (if !st.changed && st.waiting.length > 0 then []
         else sortPasses g fuel st.waiting st.sortedNodes st.satisfied st.seen)

/-- Three nodes with distinct steps, no requirements and no children. -/
def flatGraph : Graph 3 := fun i =>
  match i with
  | ⟨0, _⟩ => ⟨mkStep 0 "a" [] [.InternalImageLink "a"], []⟩
  | ⟨1, _⟩ => ⟨mkStep 1 "b" [] [], []⟩
  | _ => ⟨mkStep 2 "c" [] [.ReleaseImagesLink], []⟩

/-! ## PrintDigraph -/

/-- An `io.Writer` with state `σ`: a write returns the state after it and the error of
the write, if it failed. -/
structure Writer (σ : Type) where
  Write : σ → String → σ × Option String

/-- The inner loop `for _, other := range steps` of `PrintDigraph`, for one `step`: a line
is written for every other step that creates a link `step` requires; the first write that
fails ends the function with its error. -/
def printEdges {σ : Type} (w : Writer σ) (step : Step) : List Step → σ → σ × Option String
  | [], s => (s, none)
  | other :: rest, s =>
      if step = other then printEdges w step rest s
      else if HasAnyLinks step.Requires other.Creates then
        match w.Write s (step.Name ++ " " ++ other.Name ++ "\n") with
        | (s1, some err) => (s1, some err)
        | (s1, none) => printEdges w step rest s1
      else printEdges w step rest s

/-- The outer loop `for _, step := range steps` of `PrintDigraph`. -/
def printSteps {σ : Type} (w : Writer σ) (steps : List Step) : List Step → σ → σ × Option String
  | [], s => (s, none)
  | step :: rest, s =>
      match printEdges w step steps s with
      | (s1, some err) => (s1, some err)
      | (s1, none) => printSteps w steps rest s1

/-- The function `PrintDigraph` of `pkg/api/helpers.go`: the state of the writer after the
call and the error returned. -/
def PrintDigraph {σ : Type} (w : Writer σ) (s : σ) (steps : List Step) : σ × Option String :=
  printSteps w steps steps s

/-- A writer that appends to a text in memory and never fails, as `bytes.Buffer` does. -/
def bufferWriter : Writer String where
  Write := fun buffer text => (buffer ++ text, none)

/-- The edge lines as the spec words them: one line `<consumer-name> <producer-name>` for
each ordered pair of distinct steps (consumer, producer) with
`HasAnyLinks(consumer.Requires(), producer.Creates())`, consumer-major, producer-minor, in
the order of the step list. -/
def digraphLines (steps : List Step) : List String :=
  steps.flatMap fun consumer =>
    (steps.filter fun producer =>
        decide (consumer ≠ producer) && HasAnyLinks consumer.Requires producer.Creates).map
      fun producer => consumer.Name ++ " " ++ producer.Name ++ "\n"

/-- Writing `lines` one after the other, up to and including the first write that fails. -/
def writeLines {σ : Type} (w : Writer σ) : List String → σ → σ × Option String
  | [], s => (s, none)
  | line :: rest, s =>
      match w.Write s line with
      | (s1, some err) => (s1, some err)
      | (s1, none) => writeLines w rest s1

/-! ## The clients of the image API and the steps that use them -/

/-- The reason of an error of the API server, which `errors.IsNotFound` and
`errors.IsAlreadyExists` of `k8s.io/apimachinery` look at. -/
inductive StatusReason where
  | NotFound
  | AlreadyExists
  | Other
deriving DecidableEq, Repr

/-- A non-nil `error` returned by a client call. -/
structure ApiError where
  reason : StatusReason
  message : String
deriving DecidableEq, Repr

/-- The check `errors.IsNotFound(err)` on a non-nil error. -/
def IsNotFound (err : ApiError) : Bool := err.reason == StatusReason.NotFound

/-- The check `errors.IsAlreadyExists(err)` on a non-nil error. -/
def IsAlreadyExists (err : ApiError) : Bool := err.reason == StatusReason.AlreadyExists

/-- The Go type `coreapi.ObjectReference`, with the fields that `Run` sets. -/
structure ObjectReference where
  Kind : String
  Name : String
  Namespace : String
deriving DecidableEq, Repr

/-- The Go type `imageapi.TagReference`, with the fields that `Run` sets. -/
structure TagReference where
  ReferencePolicy : String
  From : ObjectReference
deriving DecidableEq, Repr

/-- The Go type `imageapi.ImageStreamTag`: the name and namespace of its `ObjectMeta`, its
`Tag`, and the name of its `Image`. -/
structure ImageStreamTag where
  Name : String
  Namespace : String
  Tag : Option TagReference
  ImageName : String
deriving DecidableEq, Repr

/-- The interface that `istClient.ImageStreamTags(namespace)` returns, over an external
state `σ` (the tag store and whatever else the server keeps): every call takes the
namespace and the state, and returns the state after the call and its result. -/
structure ImageStreamTagsGetter (σ : Type) where
  Get : σ → String → String → σ × Except ApiError ImageStreamTag
  Delete : σ → String → String → σ × Option ApiError
  Create : σ → String → ImageStreamTag → σ × Option ApiError

/-- The Go type `imageapi.ImageStream`, with the two fields of its status that the
resolver of `Provides` reads. -/
structure ImageStream where
  PublicDockerImageRepository : String
  DockerImageRepository : String
deriving DecidableEq, Repr

/-- The interface that `isClient.ImageStreams(namespace)` returns: `Get` takes the state,
the namespace and the name, and returns the state after the call and its result. -/
structure ImageStreamsGetter (σ : Type) where
  Get : σ → String → String → σ × Except ApiError ImageStream

/-- A call issued on the image stream tag client. -/
inductive TagCall where
  | Get (ns name : String)
  | Delete (ns name : String)
  | Create (ns : String) (ist : ImageStreamTag)
deriving DecidableEq, Repr

/-- The Go type `api.OutputImageTagStepConfiguration`. -/
structure OutputImageTagStepConfiguration where
  From : PipelineImageStreamTagReference
  To : ImageStreamTagReference
deriving DecidableEq, Repr

/-- The job specification, as far as the steps read it: its namespace. -/
structure JobSpec where
  Namespace : String
deriving DecidableEq, Repr

/-- The Go type `outputImageTagStep`, with its two clients. -/
structure outputImageTagStep (σ : Type) where
  config : OutputImageTagStepConfiguration
  istClient : ImageStreamTagsGetter σ
  isClient : ImageStreamsGetter σ
  jobSpec : JobSpec

/-- A non-nil error returned by the `Run` of a step. -/
inductive StepError where
  | couldNotResolveBaseImage (cause : ApiError)
  | failedToMarshal (cause : String)
  | couldNotFindSecret (cause : ApiError)
  | api (err : ApiError)
  | step (text : String)
deriving DecidableEq, Repr

/-- What a call of `outputImageTagStep.Run` does: the error it returns, the external
state it leaves, the client calls it issued in order, and what it printed and logged. -/
structure RunResult (σ : Type) where
  err : Option StepError
  state : σ
  calls : List TagCall
  stdout : List String
  log : List String

/-- The `ImageStreamTag` that `Run` builds from the configuration and `fromImage`. -/
def outputImageTagStep.ist {σ : Type} (PipelineImageStream : String) (s : outputImageTagStep σ)
    (fromImage : String) : ImageStreamTag :=
  { Name := s.config.To.Name ++ ":" ++ s.config.To.Tag
    Namespace := s.jobSpec.Namespace
    Tag := some
      { ReferencePolicy := "Local"
        From := { Kind := "ImageStreamImage"
                  Name := PipelineImageStream ++ "@" ++ fromImage
                  Namespace := s.jobSpec.Namespace } }
    ImageName := "" }

/-- The method `outputImageTagStep.Run` of `pkg/steps/output_image_tag.go`. The constant
`PipelineImageStream` and `json.Marshal` are declared outside the sources at hand and are
parameters. -/
def outputImageTagStep.Run {σ : Type} (PipelineImageStream : String)
    (Marshal : ImageStreamTag → Except String String) (s : outputImageTagStep σ) (st : σ)
    (dry : Bool) : RunResult σ :=
  let ns := s.jobSpec.Namespace
  let log := ["Tagging " ++ ns ++ "/" ++ PipelineImageStream ++ ":" ++ s.config.From ++ " into "
    ++ s.config.To.Name ++ ":" ++ s.config.To.Tag]
  let resolved : σ × List TagCall × Except StepError String :=
    if !dry then
      let name := PipelineImageStream ++ ":" ++ s.config.From
      match s.istClient.Get st ns name with
      | (st1, .error err) => (st1, [TagCall.Get ns name], .error (.couldNotResolveBaseImage err))
      | (st1, .ok src) => (st1, [TagCall.Get ns name], .ok src.ImageName)
    else (st, [], .ok "dry-fake")
  match resolved with
  | (st1, calls, .error err) =>
      { err := some err, state := st1, calls := calls, stdout := [], log := log }
  | (st1, calls, .ok fromImage) =>
      let ist := s.ist PipelineImageStream fromImage
      if dry then
        match Marshal ist with
        | .error err =>
            { err := some (.failedToMarshal err), state := st1, calls := calls, stdout := [],
              log := log }
        | .ok istJSON =>
            { err := none, state := st1, calls := calls, stdout := [istJSON ++ "\n"], log := log }
      else
        let deleted := s.istClient.Delete st1 ns ist.Name
        match deleted.2.filter fun err => !IsNotFound err with
        | some err =>
            { err := some (.api err), state := deleted.1,
              calls := calls ++ [TagCall.Delete ns ist.Name], stdout := [], log := log }
        | none =>
            let created := s.istClient.Create deleted.1 ns ist
            { err := (created.2.filter fun err => !IsAlreadyExists err).map StepError.api
              state := created.1
              calls := calls ++ [TagCall.Delete ns ist.Name, TagCall.Create ns ist]
              stdout := [], log := log }

/-- The Go type `api.OpenshiftInstallerClusterTestConfiguration`. -/
structure OpenshiftInstallerClusterTestConfiguration where
  ClusterProfile : String
  Upgrade : Bool
deriving DecidableEq, Repr

/-- The Go type `api.TestStepConfiguration`, with the fields that the cluster install step
reads. -/
structure TestStepConfiguration where
  As : String
  Commands : String
deriving DecidableEq, Repr

/-- The `api.Step` that `e2eTestStep` wraps (the template execution step), as far as
`e2eTestStep` uses it: its requirements and its `Run` over the external state. -/
structure WrappedStep (σ : Type) where
  Requires : List StepLink
  Run : σ → Bool → σ × Option StepError

/-- The interface that `secretClient.Secrets(namespace)` returns: `Get` takes the state,
the namespace and the name, and returns the state after the call and its error; the
secret itself is dropped by the caller. -/
structure SecretsGetter (σ : Type) where
  Get : σ → String → String → σ × Option ApiError

/-- The Go type `e2eTestStep`. -/
structure e2eTestStep (σ : Type) where
  config : OpenshiftInstallerClusterTestConfiguration
  testConfig : TestStepConfiguration
  secretClient : SecretsGetter σ
  jobSpec : JobSpec
  step : WrappedStep σ

/-- A call that `e2eTestStep.Run` makes on its collaborators. -/
inductive E2ECall where
  | SecretGet (ns name : String)
  | StepRun (dry : Bool)
deriving DecidableEq, Repr

/-- What a call of `e2eTestStep.Run` does: the error it returns, the external state it
leaves and the calls it made in order. -/
structure E2ERunResult (σ : Type) where
  err : Option StepError
  state : σ
  calls : List E2ECall

/-- The method `e2eTestStep.Run` of `pkg/steps/clusterinstall/clusterinstall.go`. -/
def e2eTestStep.Run {σ : Type} (s : e2eTestStep σ) (st : σ) (dry : Bool) : E2ERunResult σ :=
  if dry then
    { err := none, state := st, calls := [] }
  else
    let name := s.testConfig.As ++ "-cluster-profile"
    match s.secretClient.Get st s.jobSpec.Namespace name with
    | (st1, some err) =>
        { err := some (.couldNotFindSecret err), state := st1,
          calls := [E2ECall.SecretGet s.jobSpec.Namespace name] }
    | (st1, none) =>
        let ran := s.step.Run st1 dry
        { err := ran.2, state := ran.1,
          calls := [E2ECall.SecretGet s.jobSpec.Namespace name, E2ECall.StepRun dry] }

/-- A client in front of a tag store in which another job has just created every tag:
`Get` finds the source tag, `Delete` finds nothing to delete, and `Create` reports that
the tag already exists. -/
def racedClient : ImageStreamTagsGetter Unit where
  Get := fun st ns name =>
    (st, .ok { Name := name, Namespace := ns, Tag := none, ImageName := "sha256:abc" })
  Delete := fun st _ name =>
    (st, some { reason := StatusReason.NotFound, message := name ++ " not found" })
  Create := fun st _ ist =>
    (st, some { reason := StatusReason.AlreadyExists, message := ist.Name ++ " already exists" })

/-- An output image tag step over `racedClient`. -/
def racedStep : outputImageTagStep Unit where
  config :=
    { From := "src"
      To := { Cluster := "", Namespace := "ocp", Name := "stable", Tag := "cli", As := "" } }
  istClient := racedClient
  isClient :=
    { Get := fun st _ name =>
        (st, .error { reason := StatusReason.NotFound, message := name ++ " not found" }) }
  jobSpec := { Namespace := "ci-op-1" }

/-- The `Get` call with which `Run` resolves the source tag: the state after it and its
result. -/
def outputImageTagStep.resolved {σ : Type} (PipelineImageStream : String)
    (s : outputImageTagStep σ) (st : σ) : σ × Except ApiError ImageStreamTag :=
  s.istClient.Get st s.jobSpec.Namespace (PipelineImageStream ++ ":" ++ s.config.From)

/-- The `Delete` call that `Run` issues on the target tag once the source tag `src` is
resolved: the state after it and its error. -/
def outputImageTagStep.deleted {σ : Type} (PipelineImageStream : String)
    (s : outputImageTagStep σ) (st : σ) (src : ImageStreamTag) : σ × Option ApiError :=
  s.istClient.Delete (s.resolved PipelineImageStream st).1 s.jobSpec.Namespace
    (s.ist PipelineImageStream src.ImageName).Name

/-- The `Create` call that `Run` issues on the target tag after the `Delete` call: the
state after it and its error. -/
def outputImageTagStep.created {σ : Type} (PipelineImageStream : String)
    (s : outputImageTagStep σ) (st : σ) (src : ImageStreamTag) : σ × Option ApiError :=
  s.istClient.Create (s.deleted PipelineImageStream st src).1 s.jobSpec.Namespace
    (s.ist PipelineImageStream src.ImageName)

/-! ## Done, Requires, Creates and Provides of the output image tag step -/

/-- What a call of `outputImageTagStep.Done` does: the pair it returns, the external state
it leaves, the client calls it issued and what it logged. -/
structure DoneResult (σ : Type) where
  done : Bool
  err : Option StepError
  state : σ
  calls : List TagCall
  log : List String

/-- The name of the tag that `Done` looks up: `fmt.Sprintf("%s:%s", PipelineImageStream,
s.config.To)`. `formatTo` is what `%s` prints for the struct `s.config.To`, whose type is
declared outside the sources at hand. -/
def outputImageTagStep.doneName {σ : Type} (PipelineImageStream : String)
    (formatTo : ImageStreamTagReference → String) (s : outputImageTagStep σ) : String :=
  PipelineImageStream ++ ":" ++ formatTo s.config.To

/-- The method `outputImageTagStep.Done` of `pkg/steps/output_image_tag.go`. -/
def outputImageTagStep.Done {σ : Type} (PipelineImageStream : String)
    (formatTo : ImageStreamTagReference → String) (s : outputImageTagStep σ) (st : σ) :
    DoneResult σ :=
  let name := s.doneName PipelineImageStream formatTo
  let log := ["Checking for existence of " ++ name]
  match s.istClient.Get st s.jobSpec.Namespace name with
  | (st1, .error err) =>
      if IsNotFound err then
        { done := false, err := none, state := st1,
          calls := [TagCall.Get s.jobSpec.Namespace name], log := log }
      else
        { done := false, err := some (.api err), state := st1,
          calls := [TagCall.Get s.jobSpec.Namespace name], log := log }
  | (st1, .ok _) =>
      { done := true, err := none, state := st1,
        calls := [TagCall.Get s.jobSpec.Namespace name], log := log }

/-- What `%s` prints for a struct of string fields: the fields in the order of their
declaration, separated by blanks, between braces. -/
def structText (ref : ImageStreamTagReference) : String :=
  "\x7b" ++ ref.Cluster ++ " " ++ ref.Namespace ++ " " ++ ref.Name ++ " " ++ ref.Tag ++ " "
    ++ ref.As ++ "\x7d"

/-- The method `outputImageTagStep.Requires`. -/
def outputImageTagStep.Requires {σ : Type} (s : outputImageTagStep σ) : List StepLink :=
  [StepLink.InternalImageLink s.config.From, StepLink.ReleaseImagesLink]

/-- The method `outputImageTagStep.Creates`. -/
def outputImageTagStep.Creates {σ : Type} (s : outputImageTagStep σ) : List StepLink :=
  if s.config.To.As.length > 0 then
    [StepLink.ExternalImageLink s.config.To, StepLink.InternalImageLink s.config.To.As]
  else
    [StepLink.ExternalImageLink s.config.To]

/-- The call `strings.Replace(s, "-", "_", -1)`: every `-` becomes `_`. -/
def replaceDashes (s : String) : String :=
  String.mk (s.toList.map fun c => if c = '-' then '_' else c)

/-- A value of a `ParameterMap`: a function that, run on the external state, returns the
state after it, a text and an error. -/
abbrev Resolver (σ : Type) := σ → σ × String × Option StepError

/-- The function that `Provides` puts into the map: it looks the image stream up and
returns the pull specification of the tag in its registry. -/
def outputImageTagStep.resolver {σ : Type} (s : outputImageTagStep σ) : Resolver σ := fun st =>
  match s.isClient.Get st s.jobSpec.Namespace s.config.To.Name with
  | (st1, .error err) => (st1, "", some (.api err))
  | (st1, .ok is) =>
      if is.PublicDockerImageRepository.length > 0 then
        (st1, is.PublicDockerImageRepository ++ ":" ++ s.config.To.Tag, none)
      else if is.DockerImageRepository.length > 0 then
        (st1, is.DockerImageRepository ++ ":" ++ s.config.To.Tag, none)
      else
        (st1, "", some (.step ("image stream " ++ s.config.To.As
          ++ " has no accessible image registry value")))

/-- The method `outputImageTagStep.Provides`: the parameter map (`none` is the nil map) as
the list of its entries, and the gating link (`none` is nil). `strings.ToUpper` is a
parameter. -/
def outputImageTagStep.Provides {σ : Type} (ToUpper : String → String)
    (s : outputImageTagStep σ) : Option (List (String × Resolver σ)) × Option StepLink :=
  if s.config.To.As.length == 0 then
    (none, none)
  else
    (some [("IMAGE_" ++ ToUpper (replaceDashes s.config.To.As), s.resolver)],
     some (StepLink.ExternalImageLink s.config.To))

/-- The method `outputImageTagStep.Name`. -/
def outputImageTagStep.Name {σ : Type} (s : outputImageTagStep σ) : String := s.config.To.As

/-- A tag store: the client of an API server that keeps the image stream tags in a list.
`Get` finds a tag by namespace and name, `Delete` removes it, `Create` adds it; a missing
tag is NotFound, a tag that is already there is AlreadyExists. -/
def tagStore : ImageStreamTagsGetter (List ImageStreamTag) where
  Get := fun st ns name =>
    match st.find? fun t => t.Namespace == ns && t.Name == name with
    | some t => (st, .ok t)
    | none => (st, .error { reason := StatusReason.NotFound, message := name ++ " not found" })
  Delete := fun st ns name =>
    if st.any fun t => t.Namespace == ns && t.Name == name then
      (st.filter fun t => !(t.Namespace == ns && t.Name == name), none)
    else (st, some { reason := StatusReason.NotFound, message := name ++ " not found" })
  Create := fun st ns ist =>
    if st.any fun t => t.Namespace == ns && t.Name == ist.Name then
      (st, some { reason := StatusReason.AlreadyExists,
                  message := ist.Name ++ " already exists" })
    else (st ++ [{ ist with Namespace := ns }], none)

/-- An image stream client that knows no image stream. -/
def noStreams {σ : Type} : ImageStreamsGetter σ where
  Get := fun st _ name =>
    (st, .error { reason := StatusReason.NotFound, message := name ++ " not found" })

/-- An image stream client in front of one stream with the given two registry values. -/
def oneStream {σ : Type} (publicRepository repository : String) : ImageStreamsGetter σ where
  Get := fun st _ _ =>
    (st, .ok { PublicDockerImageRepository := publicRepository,
               DockerImageRepository := repository })

/-- An output image tag step over the tag store: it tags `pipeline:src` into
`stable:cli`. -/
def storeStep : outputImageTagStep (List ImageStreamTag) where
  config :=
    { From := "src"
      To := { Cluster := "", Namespace := "ocp", Name := "stable", Tag := "cli",
              As := "my-cli" } }
  istClient := tagStore
  isClient := oneStream "" "registry.svc:5000/ci-op-1/stable"
  jobSpec := { Namespace := "ci-op-1" }

/-- A tag store that holds the source tag `pipeline:src` of `storeStep` and nothing else. -/
def sourceOnlyStore : List ImageStreamTag :=
  [{ Name := "pipeline:src", Namespace := "ci-op-1", Tag := none, ImageName := "sha256:abc" }]

/-- Two nodes without requirements that are each other's child: the `Children` edges form
a cycle. -/
def loopGraph : Graph 2 := fun i =>
  match i with
  | ⟨0, _⟩ => ⟨mkStep 0 "a" [] [], [1]⟩
  | _ => ⟨mkStep 1 "b" [] [], [0]⟩

/-! ## The cluster install test step -/

/-- The method `e2eTestStep.Requires` of `pkg/steps/clusterinstall/clusterinstall.go`. -/
def e2eTestStep.Requires {σ : Type} (s : e2eTestStep σ) : List StepLink :=
  let links := s.step.Requires
  if s.config.Upgrade then
    [StepLink.ReleasePayloadImageLink "initial"] ++ links
  else
    links

/-- The Go type `templateapi.Parameter`, with the fields that `E2ETestStep` reads or
sets. -/
structure TemplateParameter where
  Name : String
  Value : String
  Required : Bool
deriving DecidableEq, Repr

/-- The Go type `templateapi.Template`, with its name and its parameters. -/
structure Template where
  Name : String
  Parameters : List TemplateParameter
deriving DecidableEq, Repr

/-- The assignment `overrides[name] = value` on a `map[string]string` kept as the list of
its entries. -/
def setOverride (overrides : List (String × String)) (name value : String) :
    List (String × String) :=
  (name, value) :: overrides.filter fun entry => entry.1 != name

/-- The call `strings.Split(s, "-")[0]`: the text before the first `-`. -/
def firstSegment (s : String) : String :=
  String.mk (s.toList.takeWhile fun c => c != '-')

/-- One iteration of the loop over `template.Parameters` in `E2ETestStep`: the parameter as
the iteration leaves it, and the overrides after it. -/
def visitParameter (config : OpenshiftInstallerClusterTestConfiguration)
    (testConfig : TestStepConfiguration) (HasInput : String → Bool)
    (acc : List TemplateParameter × List (String × String)) (p : TemplateParameter) :
    List TemplateParameter × List (String × String) :=
  if p.Name = "JOB_NAME_SAFE" then
    (acc.1 ++ [p], if !HasInput p.Name then setOverride acc.2 p.Name testConfig.As else acc.2)
  else if p.Name = "TEST_COMMAND" then
    (acc.1 ++ [{ p with Value := testConfig.Commands }], acc.2)
  else if p.Name = "CLUSTER_TYPE" then
    (acc.1 ++ [{ p with Value := firstSegment config.ClusterProfile }], acc.2)
  else
    (acc.1 ++ [p], acc.2)

/-- What `E2ETestStep` hands on: the template it passes to `TemplateExecutionStep` and the
override set it passes to `NewOverrideParameters`. -/
structure E2ESetup where
  template : Template
  overrides : List (String × String)
deriving DecidableEq, Repr

/-- The function `E2ETestStep` of `pkg/steps/clusterinstall/clusterinstall.go`, up to its
calls of `NewOverrideParameters` and `TemplateExecutionStep`, which are outside the sources
at hand. `template` is the embedded template `installTemplateE2E` once it is parsed, and
`HasInput` is `params.HasInput`. -/
def E2ETestStep (template : Template) (config : OpenshiftInstallerClusterTestConfiguration)
    (testConfig : TestStepConfiguration) (HasInput : String → Bool) : E2ESetup :=
  let visited := template.Parameters.foldl (visitParameter config testConfig HasInput) ([], [])
  if config.Upgrade then
    { template :=
        { Name := testConfig.As
          Parameters := visited.1 ++
            [ { Name := "RELEASE_IMAGE_INITIAL", Value := "", Required := true },
              { Name := "IMAGE_INSTALLER", Value := "", Required := true },
              { Name := "INSTALL_INITIAL_RELEASE", Value := "true", Required := true } ] }
      overrides :=
        if !HasInput "IMAGE_INSTALLER" then
          setOverride visited.2 "IMAGE_INSTALLER" "stable-initial:installer"
        else visited.2 }
  else
    { template := { Name := testConfig.As, Parameters := visited.1 }
      overrides := visited.2 }

/-- A template with the parameters that `E2ETestStep` looks for and one more. -/
def exampleTemplate : Template :=
  { Name := "cluster-launch-e2e"
    Parameters :=
      [ { Name := "JOB_NAME_SAFE", Value := "", Required := true },
        { Name := "TEST_COMMAND", Value := "", Required := true },
        { Name := "CLUSTER_TYPE", Value := "", Required := true },
        { Name := "NAMESPACE", Value := "", Required := true } ] }

/-! ## Comparing lists of step configurations -/

/-- The Go type `api.PipelineImageCacheStepConfiguration`. -/
structure PipelineImageCacheStepConfiguration where
  From : PipelineImageStreamTagReference
  To : PipelineImageStreamTagReference
  Commands : String
deriving DecidableEq, Repr

/-- The Go type `api.RPMImageInjectionStepConfiguration`. -/
structure RPMImageInjectionStepConfiguration where
  From : PipelineImageStreamTagReference
  To : PipelineImageStreamTagReference
deriving DecidableEq, Repr

/-- The Go type `api.StepConfiguration`, with two of the step kinds it may point to; a nil
pointer is `none`. `reflect.DeepEqual` on two such values is their equality. -/
structure StepConfiguration where
  PipelineImageCacheStepConfiguration : Option PipelineImageCacheStepConfiguration
  RPMImageInjectionStepConfiguration : Option RPMImageInjectionStepConfiguration
deriving DecidableEq, Repr

/-- The inner loop of `stepListsEqual`: `otherContains` after ranging over `second`. -/
def otherContains {α : Type} [DecidableEq α] (item : α) (second : List α) : Bool :=
  second.foldl (fun found other => if item = other then true else found) false

/-- The outer loop of `stepListsEqual`: false at the first item of `first` that `second`
does not contain, true at the end. -/
def allContained {α : Type} [DecidableEq α] (second : List α) : List α → Bool
  | [] => true
  | item :: rest => if !otherContains item second then false else allContained second rest

/-- The function `stepListsEqual` of `pkg/defaults/defaults_test.go`, for any element type
on which `reflect.DeepEqual` is equality. -/
def stepListsEqual {α : Type} [DecidableEq α] (first second : List α) : Bool :=
  if first.length != second.length then false else allContained second first

/-- A step configuration that caches `src` as `bin`. -/
def cacheConfig : StepConfiguration :=
  { PipelineImageCacheStepConfiguration := some { From := "src", To := "bin", Commands := "hi" }
    RPMImageInjectionStepConfiguration := none }

/-- A step configuration that injects RPMs into `name-without-rpms`. -/
def injectConfig : StepConfiguration :=
  { PipelineImageCacheStepConfiguration := none
    RPMImageInjectionStepConfiguration := some { From := "name-without-rpms", To := "name" } }

/-- The function `strings.ToUpper` on a text of ASCII characters. -/
def upperASCII (s : String) : String :=
  String.mk (s.toList.map Char.toUpper)

/-! ## The passes of the sort -/

theorem visitChildren_eq {n : Nat} (g : Graph n) (seen : List Step) (children waiting : List (Fin n)) :
    visitChildren g seen waiting children
      = waiting ++ children.filter (fun c => decide ((g c).Step ∉ seen)) := by
  unfold visitChildren
  induction children generalizing waiting with
  | nil => simp
  | cons c cs ih =>
    simp only [List.foldl_cons, ih, List.filter_cons]
    by_cases h : (g c).Step ∈ seen <;> simp [h]

theorem mem_visitChildren {n : Nat} (g : Graph n) (seen : List Step) (children waiting : List (Fin n))
    (w : Fin n) :
    w ∈ visitChildren g seen waiting children
      ↔ w ∈ waiting ∨ (w ∈ children ∧ (g w).Step ∉ seen) := by
  simp [visitChildren_eq, List.mem_filter]

theorem visitNode_seen_mono {n : Nat} (g : Graph n) (st : PassState n) (a : Fin n) (s : Step)
    (h : s ∈ st.seen) : s ∈ (visitNode g st a).seen := by
  unfold visitNode
  split_ifs <;> simp [h]

theorem mem_visitNode_waiting {n : Nat} (g : Graph n) (st : PassState n) (a w : Fin n) :
    w ∈ (visitNode g st a).waiting
      ↔ w ∈ st.waiting ∨ (w ∈ (g a).Children ∧ (g w).Step ∉ st.seen)
          ∨ (w = a ∧ (g a).Step ∉ st.seen ∧ HasAllLinks (g a).Step.Requires st.satisfied = false) := by
  unfold visitNode
  split_ifs with h1 h2
  · simp [mem_visitChildren, h1]
  · simp only [Bool.not_eq_eq_eq_not, Bool.not_true] at h2
    simp only [List.mem_append, mem_visitChildren, List.mem_singleton, h1, h2, not_false_eq_true, and_self, and_true]
    tauto
  · simp only [Bool.not_eq_eq_eq_not, Bool.not_true, Bool.not_eq_false] at h2
    simp [mem_visitChildren, h1, h2]

theorem visitNode_self {n : Nat} (g : Graph n) (st : PassState n) (a : Fin n)
    (h : (g a).Step ∉ (visitNode g st a).seen) : a ∈ (visitNode g st a).waiting := by
  rw [mem_visitNode_waiting]
  right; right
  unfold visitNode at h
  split_ifs at h with h1 h2
  · exact absurd h1 h
  · simp only [Bool.not_eq_eq_eq_not, Bool.not_true] at h2
    exact ⟨rfl, h1, h2⟩
  · simp at h

theorem fold_seen_mono {n : Nat} (g : Graph n) (nodes : List (Fin n)) (st : PassState n) (s : Step)
    (h : s ∈ st.seen) : s ∈ (nodes.foldl (visitNode g) st).seen := by
  induction nodes generalizing st with
  | nil => simpa using h
  | cons a rest ih => exact ih _ (visitNode_seen_mono g st a s h)

theorem fold_waiting_mono {n : Nat} (g : Graph n) (nodes : List (Fin n)) (st : PassState n)
    (w : Fin n) (h : w ∈ st.waiting) : w ∈ (nodes.foldl (visitNode g) st).waiting := by
  induction nodes generalizing st with
  | nil => simpa using h
  | cons a rest ih => exact ih _ ((mem_visitNode_waiting g st a w).2 (Or.inl h))

theorem fold_waiting_self {n : Nat} (g : Graph n) (nodes : List (Fin n)) (st : PassState n)
    (a : Fin n) (ha : a ∈ nodes) (h : (g a).Step ∉ (nodes.foldl (visitNode g) st).seen) :
    a ∈ (nodes.foldl (visitNode g) st).waiting := by
  induction nodes generalizing st with
  | nil => simp at ha
  | cons b rest ih =>
    simp only [List.foldl_cons] at h ⊢
    rcases List.mem_cons.1 ha with rfl | hr
    · apply fold_waiting_mono
      apply visitNode_self
      exact fun hc => h (fold_seen_mono g rest _ _ hc)
    · exact ih _ hr h

theorem fold_waiting_child {n : Nat} (g : Graph n) (nodes : List (Fin n)) (st : PassState n)
    (a c : Fin n) (ha : a ∈ nodes) (hc : c ∈ (g a).Children)
    (h : (g c).Step ∉ (nodes.foldl (visitNode g) st).seen) :
    c ∈ (nodes.foldl (visitNode g) st).waiting := by
  induction nodes generalizing st with
  | nil => simp at ha
  | cons b rest ih =>
    simp only [List.foldl_cons] at h ⊢
    rcases List.mem_cons.1 ha with rfl | hr
    · apply fold_waiting_mono
      rw [mem_visitNode_waiting]
      refine Or.inr (Or.inl ⟨hc, fun hs => h ?_⟩)
      exact fold_seen_mono g rest _ _ (visitNode_seen_mono g st a _ hs)
    · exact ih _ hr h

theorem fold_waiting_origin {n : Nat} (g : Graph n) (nodes : List (Fin n)) (st : PassState n)
    (w : Fin n) (h : w ∈ (nodes.foldl (visitNode g) st).waiting) :
    w ∈ st.waiting ∨ ((g w).Step ∉ st.seen ∧ (w ∈ nodes ∨ ∃ a ∈ nodes, w ∈ (g a).Children)) := by
  induction nodes generalizing st with
  | nil => left; simpa using h
  | cons b rest ih =>
    simp only [List.foldl_cons] at h
    rcases ih _ h with h1 | ⟨h1, h2⟩
    · rcases (mem_visitNode_waiting g st b w).1 h1 with h3 | ⟨h3, h4⟩ | ⟨rfl, h4, _⟩
      · exact Or.inl h3
      · exact Or.inr ⟨h4, Or.inr ⟨b, List.mem_cons_self _ _, h3⟩⟩
      · exact Or.inr ⟨h4, Or.inl (List.mem_cons_self _ _)⟩
    · right
      refine ⟨fun hs => h1 (visitNode_seen_mono g st b _ hs), ?_⟩
      rcases h2 with h2 | ⟨a, ha, hc⟩
      · exact Or.inl (List.mem_cons_of_mem _ h2)
      · exact Or.inr ⟨a, List.mem_cons_of_mem _ ha, hc⟩

theorem HasAllLinks_iff (needles haystack : List StepLink) :
    HasAllLinks needles haystack = true
      ↔ ∀ link ∈ needles, ∃ hay ∈ haystack, Matches link hay = true := by
  simp [HasAllLinks, List.all_eq_true, List.any_eq_true]

theorem HasAnyLinks_iff (steps candidates : List StepLink) :
    HasAnyLinks steps candidates = true
      ↔ ∃ link ∈ steps, ∃ c ∈ candidates, Matches link c = true := by
  simp only [HasAnyLinks, List.any_eq_true]
  constructor
  · rintro ⟨c, hc, l, hl, h⟩; exact ⟨l, hl, c, hc, h⟩
  · rintro ⟨l, hl, c, hc, h⟩; exact ⟨c, hc, l, hl, h⟩

theorem emittedBy_sublist {n : Nat} (g : Graph n) (nodes : List (Fin n)) (satisfied : List StepLink)
    (seen : List Step) : (emittedBy g satisfied seen nodes).Sublist nodes := by
  induction nodes generalizing satisfied seen with
  | nil => simp [emittedBy]
  | cons a rest ih =>
    simp only [emittedBy]
    split_ifs
    · exact (ih _ _).cons _
    · exact (ih _ _).cons _
    · exact (ih _ _).cons₂ _

theorem emittedBy_split {n : Nat} (g : Graph n) (nodes : List (Fin n)) (satisfied : List StepLink)
    (seen : List Step) (pre post : List (Fin n)) (e : Fin n)
    (h : emittedBy g satisfied seen nodes = pre ++ e :: post) :
    HasAllLinks (g e).Step.Requires (satisfied ++ pre.flatMap fun p => (g p).Step.Creates) = true
      ∧ (g e).Step ∉ seen ∧ (g e).Step ∉ pre.map fun p => (g p).Step := by
  induction nodes generalizing satisfied seen pre with
  | nil => simp [emittedBy] at h
  | cons a rest ih =>
    simp only [emittedBy] at h
    split_ifs at h with h1 h2
    · exact ih _ _ _ h
    · exact ih _ _ _ h
    · simp only [Bool.not_eq_eq_eq_not, Bool.not_true, Bool.not_eq_false] at h2
      cases pre with
      | nil =>
        simp only [List.nil_append, List.cons.injEq] at h
        obtain ⟨rfl, -⟩ := h
        simpa using ⟨h2, h1⟩
      | cons p pre =>
        simp only [List.cons_append, List.cons.injEq] at h
        obtain ⟨rfl, h⟩ := h
        obtain ⟨k1, k2, k3⟩ := ih _ _ _ h
        simp only [List.mem_cons, not_or] at k2
        refine ⟨?_, k2.2, ?_⟩
        · simpa [List.append_assoc] using k1
        · simp only [List.map_cons, List.mem_cons, not_or]
          exact ⟨k2.1, k3⟩

theorem producersFirst_append {n : Nat} (g : Graph n) (sorted : List (Fin n))
    (seen : List Step) (nodes : List (Fin n)) (h : ProducersFirst g sorted) :
    ProducersFirst g
      (sorted ++ emittedBy g (sorted.flatMap fun p => (g p).Step.Creates) seen nodes) := by
  intro pre e post hsplit link hlink
  rcases List.append_eq_append_iff.1 hsplit with ⟨as, h1, h2⟩ | ⟨bs, h1, h2⟩
  · -- pre = sorted ++ as, emitted = as ++ e :: post
    obtain ⟨k1, -, -⟩ := emittedBy_split g nodes _ seen as post e h2
    rw [← List.flatMap_append, HasAllLinks_iff] at k1
    obtain ⟨hay, hhay, hm⟩ := k1 link hlink
    obtain ⟨p, hp, hc⟩ := List.mem_flatMap.1 hhay
    exact ⟨p, h1 ▸ hp, hay, hc, hm⟩
  · -- sorted = pre ++ bs, e :: post = bs ++ emitted
    cases bs with
    | nil =>
      simp only [List.nil_append, List.append_nil] at h1 h2
      obtain ⟨k1, -, -⟩ := emittedBy_split g nodes _ seen [] post e h2.symm
      rw [HasAllLinks_iff] at k1
      obtain ⟨hay, hhay, hm⟩ := k1 link hlink
      simp only [List.flatMap_nil, List.append_nil] at hhay
      obtain ⟨p, hp, hc⟩ := List.mem_flatMap.1 hhay
      exact ⟨p, h1 ▸ hp, hay, hc, hm⟩
    | cons b bs =>
      simp only [List.cons_append, List.cons.injEq] at h2
      obtain ⟨rfl, -⟩ := h2
      exact h pre e bs h1 link hlink


theorem fold_structure {n : Nat} (g : Graph n) (nodes : List (Fin n)) (st : PassState n) :
    (nodes.foldl (visitNode g) st).sortedNodes
        = st.sortedNodes ++ emittedBy g st.satisfied st.seen nodes
    ∧ (nodes.foldl (visitNode g) st).satisfied
        = st.satisfied ++ (emittedBy g st.satisfied st.seen nodes).flatMap (fun e => (g e).Step.Creates)
    ∧ (nodes.foldl (visitNode g) st).seen
        = ((emittedBy g st.satisfied st.seen nodes).map (fun e => (g e).Step)).reverse ++ st.seen
    ∧ (nodes.foldl (visitNode g) st).changed
        = (st.changed || !(emittedBy g st.satisfied st.seen nodes).isEmpty) := by
  induction nodes generalizing st with
  | nil => simp [emittedBy]
  | cons a rest ih =>
    simp only [List.foldl_cons]
    obtain ⟨h1, h2, h3, h4⟩ := ih (visitNode g st a)
    rw [h1, h2, h3, h4]
    by_cases hs : (g a).Step ∈ st.seen
    · simp [visitNode, emittedBy, hs]
    · by_cases hr : HasAllLinks (g a).Step.Requires st.satisfied
      · simp [visitNode, emittedBy, hs, hr]
      · simp [visitNode, emittedBy, hs, hr]

theorem runPass_sortedNodes {n : Nat} (g : Graph n) (sorted : List (Fin n))
    (satisfied : List StepLink) (seen : List Step) (nodes : List (Fin n)) :
    (runPass g sorted satisfied seen nodes).sortedNodes
      = sorted ++ emittedBy g satisfied seen nodes :=
  (fold_structure g nodes _).1

theorem runPass_satisfied {n : Nat} (g : Graph n) (sorted : List (Fin n))
    (satisfied : List StepLink) (seen : List Step) (nodes : List (Fin n)) :
    (runPass g sorted satisfied seen nodes).satisfied
      = satisfied ++ (emittedBy g satisfied seen nodes).flatMap (fun e => (g e).Step.Creates) :=
  (fold_structure g nodes _).2.1

theorem runPass_seen {n : Nat} (g : Graph n) (sorted : List (Fin n))
    (satisfied : List StepLink) (seen : List Step) (nodes : List (Fin n)) :
    (runPass g sorted satisfied seen nodes).seen
      = ((emittedBy g satisfied seen nodes).map (fun e => (g e).Step)).reverse ++ seen :=
  (fold_structure g nodes _).2.2.1

theorem runPass_changed {n : Nat} (g : Graph n) (sorted : List (Fin n))
    (satisfied : List StepLink) (seen : List Step) (nodes : List (Fin n)) :
    (runPass g sorted satisfied seen nodes).changed
      = !(emittedBy g satisfied seen nodes).isEmpty := by
  have h := (fold_structure g nodes
    { sortedNodes := sorted, satisfied := satisfied, seen := seen, waiting := [],
      changed := false }).2.2.2
  simpa [runPass] using h

theorem sortLoop_nil {n : Nat} (g : Graph n) (fuel : Nat) (sorted : List (Fin n))
    (satisfied : List StepLink) (seen : List Step) :
    sortLoop g fuel [] sorted satisfied seen = some { nodes := sorted, err := none, log := [] } := by
  cases fuel <;> rfl

theorem sortLoop_succ {n : Nat} (g : Graph n) (fuel : Nat) (a : Fin n) (rest sorted : List (Fin n))
    (satisfied : List StepLink) (seen : List Step) :
    sortLoop g (fuel + 1) (a :: rest) sorted satisfied seen
      = if !(runPass g sorted satisfied seen (a :: rest)).changed
            && (runPass g sorted satisfied seen (a :: rest)).waiting.length > 0 then
          some { nodes := [], err := some "steps are missing dependencies",
                 log := missingLog g (runPass g sorted satisfied seen (a :: rest)).satisfied
                          (runPass g sorted satisfied seen (a :: rest)).waiting }
        else
          sortLoop g fuel (runPass g sorted satisfied seen (a :: rest)).waiting
            (runPass g sorted satisfied seen (a :: rest)).sortedNodes
            (runPass g sorted satisfied seen (a :: rest)).satisfied
            (runPass g sorted satisfied seen (a :: rest)).seen := rfl

theorem emittedBy_nodup {n : Nat} (g : Graph n) (nodes : List (Fin n)) (satisfied : List StepLink)
    (seen : List Step) :
    ((emittedBy g satisfied seen nodes).map fun e => (g e).Step).Nodup
      ∧ ∀ e ∈ emittedBy g satisfied seen nodes, (g e).Step ∉ seen := by
  induction nodes generalizing satisfied seen with
  | nil => simp [emittedBy]
  | cons a rest ih =>
    simp only [emittedBy]
    split_ifs with h1 h2
    · exact ih _ _
    · exact ih _ _
    · obtain ⟨k1, k2⟩ := ih (satisfied ++ (g a).Step.Creates) ((g a).Step :: seen)
      constructor
      · simp only [List.map_cons, List.nodup_cons]
        refine ⟨?_, k1⟩
        intro hmem
        obtain ⟨e, he, heq⟩ := List.mem_map.1 hmem
        exact k2 e he (by simp [heq])
      · intro e he
        rcases List.mem_cons.1 he with rfl | he
        · exact h1
        · exact fun hs => k2 e he (List.mem_cons_of_mem _ hs)

theorem sortLoop_inv {n : Nat} (g : Graph n) (fuel : Nat) :
    ∀ (nodes sorted : List (Fin n)) (satisfied : List StepLink) (seen : List Step)
      (out : SortOutcome n),
      satisfied = sorted.flatMap (fun p => (g p).Step.Creates) →
      (∀ s, s ∈ seen ↔ s ∈ sorted.map fun p => (g p).Step) →
      ProducersFirst g sorted → (sorted.map fun p => (g p).Step).Nodup →
      sortLoop g fuel nodes sorted satisfied seen = some out → out.err = none →
      ProducersFirst g out.nodes ∧ (out.nodes.map fun p => (g p).Step).Nodup := by
  induction fuel with
  | zero =>
    intro nodes sorted satisfied seen out hsat hseen hpf hnd hrun herr
    cases nodes with
    | nil =>
      rw [sortLoop_nil] at hrun
      cases hrun
      exact ⟨hpf, hnd⟩
    | cons a rest => simp [sortLoop] at hrun
  | succ fuel ih =>
    intro nodes sorted satisfied seen out hsat hseen hpf hnd hrun herr
    cases nodes with
    | nil =>
      rw [sortLoop_nil] at hrun
      cases hrun
      exact ⟨hpf, hnd⟩
    | cons a rest =>
      rw [sortLoop_succ] at hrun
      split_ifs at hrun with hstuck
      · cases hrun
        simp at herr
      · refine ih _ _ _ _ out ?_ ?_ ?_ ?_ hrun herr
        · rw [runPass_satisfied, runPass_sortedNodes, hsat, List.flatMap_append]
        · intro s
          rw [runPass_seen, runPass_sortedNodes]
          simp only [List.mem_append, List.mem_reverse, List.map_append, hseen s]
          tauto
        · rw [runPass_sortedNodes, hsat]
          exact producersFirst_append g sorted seen (a :: rest) hpf
        · rw [runPass_sortedNodes, List.map_append]
          obtain ⟨k1, k2⟩ := emittedBy_nodup g (a :: rest) satisfied seen
          refine List.Nodup.append hnd k1 ?_
          intro s hs1 hs2
          obtain ⟨e, he, rfl⟩ := List.mem_map.1 hs2
          exact k2 e he ((hseen _).2 hs1)


theorem unseenCount_le {n : Nat} (g : Graph n) (seen : List Step) : unseenCount g seen ≤ n := by
  unfold unseenCount
  calc (Finset.univ.filter fun i : Fin n => (g i).Step ∉ seen).card
      ≤ (Finset.univ : Finset (Fin n)).card := Finset.card_filter_le _ _
    _ = n := by simp

theorem unseenCount_lt {n : Nat} (g : Graph n) (seen seen2 : List Step) (e : Fin n)
    (hsub : ∀ s, s ∈ seen → s ∈ seen2) (h1 : (g e).Step ∉ seen) (h2 : (g e).Step ∈ seen2) :
    unseenCount g seen2 < unseenCount g seen := by
  unfold unseenCount
  apply Finset.card_lt_card
  rw [Finset.ssubset_iff_of_subset]
  · exact ⟨e, by simp [h1], by simp [h2]⟩
  · intro i hi
    simp only [Finset.mem_filter, Finset.mem_univ, true_and] at hi ⊢
    exact fun hs => hi (hsub _ hs)

theorem runPass_unseenCount_lt {n : Nat} (g : Graph n) (sorted : List (Fin n))
    (satisfied : List StepLink) (seen : List Step) (nodes : List (Fin n))
    (h : (runPass g sorted satisfied seen nodes).changed = true) :
    unseenCount g (runPass g sorted satisfied seen nodes).seen < unseenCount g seen := by
  rw [runPass_changed] at h
  cases hem : emittedBy g satisfied seen nodes with
  | nil => simp [hem] at h
  | cons e es =>
    apply unseenCount_lt g seen _ e
    · intro s hs
      rw [runPass_seen]
      exact List.mem_append_right _ hs
    · exact (emittedBy_nodup g nodes satisfied seen).2 e (by simp [hem])
    · rw [runPass_seen, hem]
      simp

theorem sortLoop_total {n : Nat} (g : Graph n) (fuel : Nat) :
    ∀ (nodes sorted : List (Fin n)) (satisfied : List StepLink) (seen : List Step),
      unseenCount g seen < fuel →
      ∃ out, sortLoop g fuel nodes sorted satisfied seen = some out := by
  induction fuel with
  | zero => intro _ _ _ _ h; exact absurd h (Nat.not_lt_zero _)
  | succ fuel ih =>
    intro nodes sorted satisfied seen hlt
    cases nodes with
    | nil => exact ⟨_, sortLoop_nil g _ _ _ _⟩
    | cons a rest =>
      rw [sortLoop_succ]
      split_ifs with hstuck
      · exact ⟨_, rfl⟩
      · cases hch : (runPass g sorted satisfied seen (a :: rest)).changed with
        | true =>
          apply ih
          have := runPass_unseenCount_lt g sorted satisfied seen (a :: rest) hch
          omega
        | false =>
          have hw : (runPass g sorted satisfied seen (a :: rest)).waiting = [] := by
            simp only [hch, Bool.not_false, Bool.true_and, decide_eq_true_eq, not_lt,
              Nat.le_zero_eq, List.length_eq_zero] at hstuck
            exact hstuck
          rw [hw]
          exact ⟨_, sortLoop_nil g _ _ _ _⟩

theorem TopologicalSort_total {n : Nat} (g : Graph n) (nodes : List (Fin n)) :
    ∃ out, TopologicalSort g nodes = some out :=
  sortLoop_total g (n + 1) nodes [] [] [] (Nat.lt_succ_of_le (unseenCount_le g []))


/-! ## Completeness on acyclic, satisfiable graphs -/

theorem minimal_unseen {n : Nat} (g : Graph n) (seen : List Step)
    (hacyc : ∀ i, ¬ Relation.TransGen (fun a b => DependsOn (g a).Step (g b).Step = true) i i)
    (i₀ : Fin n) (h₀ : (g i₀).Step ∉ seen) :
    ∃ i, (g i).Step ∉ seen ∧ ∀ j, DependsOn (g i).Step (g j).Step = true → (g j).Step ∈ seen := by
  let r : Fin n → Fin n → Prop :=
    Relation.TransGen (Function.swap fun a b => DependsOn (g a).Step (g b).Step = true)
  haveI : IsTrans (Fin n) r := ⟨fun _ _ _ h1 h2 => Relation.TransGen.trans h1 h2⟩
  haveI : IsIrrefl (Fin n) r := ⟨fun i h => hacyc i (Relation.transGen_swap.1 h)⟩
  have hwf : WellFounded r := Finite.wellFounded_of_trans_of_irrefl r
  obtain ⟨i, hi, hmin⟩ := hwf.has_min {i | (g i).Step ∉ seen} ⟨i₀, h₀⟩
  refine ⟨i, hi, fun j hj => ?_⟩
  by_contra hjs
  exact hmin j hjs (Relation.TransGen.single hj)

theorem emittedBy_ne_nil {n : Nat} (g : Graph n) (nodes : List (Fin n))
    (satisfied : List StepLink) (seen : List Step) (a : Fin n) (ha : a ∈ nodes)
    (hready : HasAllLinks (g a).Step.Requires satisfied = true) (hs : (g a).Step ∉ seen) :
    emittedBy g satisfied seen nodes ≠ [] := by
  induction nodes with
  | nil => simp at ha
  | cons b rest ih =>
    simp only [emittedBy]
    split_ifs with h1 h2
    · rcases List.mem_cons.1 ha with rfl | hr
      · exact absurd h1 hs
      · exact ih hr
    · rcases List.mem_cons.1 ha with rfl | hr
      · simp [hready] at h2
      · exact ih hr
    · simp

theorem frontier_ready {n : Nat} (g : Graph n) (sorted nodes : List (Fin n)) (seen : List Step)
    (hacyc : ∀ i, ¬ Relation.TransGen (fun a b => DependsOn (g a).Step (g b).Step = true) i i)
    (hsat : ∀ i, ∀ link ∈ (g i).Step.Requires,
      ∃ j, (g j).Step ≠ (g i).Step ∧ ∃ c ∈ (g j).Step.Creates, Matches link c = true)
    (hseen : ∀ s, s ∈ seen ↔ s ∈ sorted.map fun p => (g p).Step)
    (hfr : Frontier g seen nodes) (i₀ : Fin n) (h₀ : (g i₀).Step ∉ seen) :
    ∃ a ∈ nodes, (g a).Step ∉ seen
      ∧ HasAllLinks (g a).Step.Requires (sorted.flatMap fun p => (g p).Step.Creates) = true := by
  obtain ⟨i, hi, hmin⟩ := minimal_unseen g seen hacyc i₀ h₀
  have hdep : ∀ link ∈ (g i).Step.Requires,
      ∃ j, DependsOn (g i).Step (g j).Step = true ∧ ∃ c ∈ (g j).Step.Creates,
        Matches link c = true := by
    intro link hlink
    obtain ⟨j, hne, c, hc, hm⟩ := hsat i link hlink
    refine ⟨j, ?_, c, hc, hm⟩
    simp only [DependsOn, Bool.and_eq_true, decide_eq_true_eq, HasAnyLinks_iff]
    exact ⟨fun h => hne h.symm, link, hlink, c, hc, hm⟩
  refine ⟨i, ?_, hi, ?_⟩
  · by_cases hroot : ∀ j, DependsOn (g i).Step (g j).Step = false
    · exact (hfr i hi).1 hroot
    · push_neg at hroot
      obtain ⟨j, hj⟩ := hroot
      simp only [ne_eq, Bool.not_eq_false] at hj
      exact (hfr i hi).2 j hj (hmin j hj)
  · rw [HasAllLinks_iff]
    intro link hlink
    obtain ⟨j, hj, c, hc, hm⟩ := hdep link hlink
    have hjs := (hseen _).1 (hmin j hj)
    obtain ⟨p, hp, hpe⟩ := List.mem_map.1 hjs
    refine ⟨c, List.mem_flatMap.2 ⟨p, hp, ?_⟩, hm⟩
    rw [hpe]
    exact hc

theorem frontier_runPass {n : Nat} (g : Graph n) (sorted nodes : List (Fin n))
    (satisfied : List StepLink) (seen : List Step)
    (hch : ∀ i j, i ∈ (g j).Children ↔ DependsOn (g i).Step (g j).Step = true)
    (hfr : Frontier g seen nodes) :
    Frontier g (runPass g sorted satisfied seen nodes).seen
      (runPass g sorted satisfied seen nodes).waiting := by
  intro i hi
  have hi0 : (g i).Step ∉ seen := fun h => hi (fold_seen_mono g nodes _ _ h)
  constructor
  · intro hroot
    exact fold_waiting_self g nodes _ i ((hfr i hi0).1 hroot) hi
  · intro j hj hjs
    by_cases hjs0 : (g j).Step ∈ seen
    · exact fold_waiting_self g nodes _ i ((hfr i hi0).2 j hj hjs0) hi
    · rw [runPass_seen] at hjs
      rcases List.mem_append.1 hjs with h | h
      · obtain ⟨e, he, heq⟩ := List.mem_map.1 (List.mem_reverse.1 h)
        have hen : e ∈ nodes := (emittedBy_sublist g nodes satisfied seen).subset he
        refine fold_waiting_child g nodes _ e i hen ?_ hi
        rw [hch, heq]
        exact hj
      · exact absurd h hjs0

theorem runPass_all_seen {n : Nat} (g : Graph n) (sorted nodes : List (Fin n))
    (satisfied : List StepLink) (seen : List Step) (hall : ∀ i, (g i).Step ∈ seen) :
    emittedBy g satisfied seen nodes = []
      ∧ (runPass g sorted satisfied seen nodes).waiting = [] := by
  constructor
  · cases hem : emittedBy g satisfied seen nodes with
    | nil => rfl
    | cons e es =>
      exact absurd (hall e) ((emittedBy_nodup g nodes satisfied seen).2 e (by simp [hem]))
  · apply List.eq_nil_iff_forall_not_mem.2
    intro w hw
    rcases fold_waiting_origin g nodes _ w hw with h | ⟨h, -⟩
    · simp at h
    · exact h (hall w)

theorem sortLoop_complete {n : Nat} (g : Graph n)
    (hch : ∀ i j, i ∈ (g j).Children ↔ DependsOn (g i).Step (g j).Step = true)
    (hacyc : ∀ i, ¬ Relation.TransGen (fun a b => DependsOn (g a).Step (g b).Step = true) i i)
    (hsat : ∀ i, ∀ link ∈ (g i).Step.Requires,
      ∃ j, (g j).Step ≠ (g i).Step ∧ ∃ c ∈ (g j).Step.Creates, Matches link c = true)
    (fuel : Nat) :
    ∀ (nodes sorted : List (Fin n)) (satisfied : List StepLink) (seen : List Step),
      satisfied = sorted.flatMap (fun p => (g p).Step.Creates) →
      (∀ s, s ∈ seen ↔ s ∈ sorted.map fun p => (g p).Step) →
      Frontier g seen nodes → unseenCount g seen < fuel →
      ∃ order, sortLoop g fuel nodes sorted satisfied seen
          = some { nodes := order, err := none, log := [] }
        ∧ ∀ i, (g i).Step ∈ order.map fun p => (g p).Step := by
  induction fuel with
  | zero => intro _ _ _ _ _ _ _ h; exact absurd h (Nat.not_lt_zero _)
  | succ fuel ih =>
    intro nodes sorted satisfied seen hsatd hseen hfr hlt
    cases nodes with
    | nil =>
      refine ⟨sorted, sortLoop_nil g _ _ _ _, fun i => ?_⟩
      by_contra hi
      have hi0 : (g i).Step ∉ seen := fun h => hi ((hseen _).1 h)
      obtain ⟨a, ha, -⟩ := frontier_ready g sorted [] seen hacyc hsat hseen hfr i hi0
      simp at ha
    | cons a rest =>
      rw [sortLoop_succ]
      by_cases hall : ∀ i, (g i).Step ∈ seen
      · obtain ⟨hem, hw⟩ := runPass_all_seen g sorted (a :: rest) satisfied seen hall
        have hch0 : (runPass g sorted satisfied seen (a :: rest)).changed = false := by
          rw [runPass_changed, hem]; rfl
        rw [if_neg (by simp [hw]), hw, sortLoop_nil, runPass_sortedNodes, hem,
          List.append_nil]
        exact ⟨sorted, rfl, fun i => (hseen _).1 (hall i)⟩
      · push_neg at hall
        obtain ⟨i₀, h₀⟩ := hall
        obtain ⟨b, hb, hbs, hready⟩ :=
          frontier_ready g sorted (a :: rest) seen hacyc hsat hseen hfr i₀ h₀
        rw [← hsatd] at hready
        have hne := emittedBy_ne_nil g (a :: rest) satisfied seen b hb hready hbs
        have hchg : (runPass g sorted satisfied seen (a :: rest)).changed = true := by
          rw [runPass_changed]
          cases hem : emittedBy g satisfied seen (a :: rest) with
          | nil => exact absurd hem hne
          | cons e es => rfl
        rw [if_neg (by simp [hchg])]
        apply ih
        · rw [runPass_satisfied, runPass_sortedNodes, hsatd, List.flatMap_append]
        · intro s
          rw [runPass_seen, runPass_sortedNodes]
          simp only [List.mem_append, List.mem_reverse, List.map_append, hseen s]
          tauto
        · exact frontier_runPass g sorted (a :: rest) satisfied seen hch hfr
        · have := runPass_unseenCount_lt g sorted satisfied seen (a :: rest) hchg
          omega


theorem no_cycle_of_rank {α : Type} (r : α → α → Prop) (rank : α → Nat)
    (h : ∀ a b, r a b → rank b < rank a) : ∀ a, ¬ Relation.TransGen r a a := by
  have key : ∀ a b, Relation.TransGen r a b → rank b < rank a := by
    intro a b hab
    induction hab with
    | single h1 => exact h _ _ h1
    | tail _ h2 ih => exact lt_trans (h _ _ h2) ih
  intro a ha
  exact lt_irrefl _ (key a a ha)

theorem mem_buildNodes_children (steps : List Step) (i j : Fin steps.length) :
    i ∈ (buildNodes steps j).Children
      ↔ DependsOn (buildNodes steps i).Step (buildNodes steps j).Step = true := by
  simp [buildNodes, List.mem_filter]

/-- In the graph of a step list, nodes that carry the same step have the same children. -/
theorem buildNodes_children_congr (steps : List Step) (a b : Fin steps.length)
    (h : (buildNodes steps a).Step = (buildNodes steps b).Step) :
    (buildNodes steps a).Children = (buildNodes steps b).Children := by
  have h2 : steps.get a = steps.get b := h
  simp only [buildNodes, h2]

theorem frontier_BuildGraph (steps : List Step) :
    Frontier (buildNodes steps) [] (BuildGraph steps) := by
  intro i _
  constructor
  · intro hroot
    simp only [BuildGraph, List.mem_filter, List.mem_finRange, List.all_eq_true, true_and,
      Bool.not_eq_true', true_implies]
    exact hroot
  · intro j _ hj
    simp at hj

theorem exampleSteps_acyclic : ∀ s, ¬ Relation.TransGen
    (fun a b => a ∈ exampleSteps ∧ b ∈ exampleSteps ∧ DependsOn a b = true) s s := by
  apply no_cycle_of_rank _ (fun s => s.Requires.length)
  rintro a b ⟨ha, hb, hd⟩
  simp only [exampleSteps, List.mem_cons, List.mem_singleton, List.not_mem_nil, or_false] at ha hb
  rcases ha with rfl | rfl <;> rcases hb with rfl | rfl <;> revert hd <;> decide


/-! ## Steps that can never be satisfied -/

theorem forall_mem_of_forall_split {α : Type} (P : α → Prop) (l : List α)
    (h : ∀ pre e post, l = pre ++ e :: post → (∀ p ∈ pre, P p) → P e) : ∀ e ∈ l, P e := by
  induction l using List.reverseRecOn with
  | nil => simp
  | append_singleton init a ih =>
    have hinit : ∀ e ∈ init, P e := by
      apply ih
      intro pre e post hsplit hpre
      exact h pre e (post ++ [a]) (by simp [hsplit]) hpre
    intro e he
    rcases List.mem_append.1 he with he | he
    · exact hinit e he
    · rw [List.mem_singleton.1 he]
      exact h init a [] rfl hinit

theorem reachable_child {n : Nat} (g : Graph n) (input : List (Fin n)) (a c : Fin n)
    (ha : Reachable g input a) (hc : c ∈ (g a).Children) : Reachable g input c := by
  obtain ⟨y, hy, hp⟩ := ha
  exact ⟨y, hy, hp.tail hc⟩

theorem stuck_emitted {n : Nat} (g : Graph n) (input : List (Fin n)) (T : Step → Prop)
    (hT : ∀ c, Reachable g input c → T (g c).Step → ∃ link ∈ (g c).Step.Requires,
      ∀ y, Reachable g input y → (∃ cr ∈ (g y).Step.Creates, Matches link cr = true) →
        T (g y).Step)
    (nodes sorted : List (Fin n)) (seen : List Step)
    (hnodes : ∀ w ∈ nodes, Reachable g input w)
    (hsorted : ∀ p ∈ sorted, Reachable g input p ∧ ¬ T (g p).Step) :
    ∀ e ∈ emittedBy g (sorted.flatMap fun p => (g p).Step.Creates) seen nodes,
      ¬ T (g e).Step := by
  apply forall_mem_of_forall_split
  intro pre e post hsplit hpre hTe
  have hsub := (emittedBy_sublist g nodes (sorted.flatMap fun p => (g p).Step.Creates) seen).subset
  have he : Reachable g input e := hnodes e (hsub (by simp [hsplit]))
  obtain ⟨link, hlink, honly⟩ := hT e he hTe
  obtain ⟨k1, -, -⟩ := emittedBy_split g nodes _ seen pre post e hsplit
  rw [← List.flatMap_append, HasAllLinks_iff] at k1
  obtain ⟨hay, hhay, hm⟩ := k1 link hlink
  obtain ⟨p, hp, hc⟩ := List.mem_flatMap.1 hhay
  rcases List.mem_append.1 hp with hp | hp
  · exact (hsorted p hp).2 (honly p (hsorted p hp).1 ⟨hay, hc, hm⟩)
  · exact hpre p hp (honly p (hnodes p (hsub (by simp [hsplit, hp]))) ⟨hay, hc, hm⟩)

theorem stuckInv_runPass {n : Nat} (g : Graph n) (input : List (Fin n)) (T : Step → Prop)
    (x : Fin n) (hTx : T (g x).Step)
    (hcoh : ∀ a b, Reachable g input a → Reachable g input b → (g a).Step = (g b).Step →
      (g a).Children = (g b).Children)
    (hT : ∀ c, Reachable g input c → T (g c).Step → ∃ link ∈ (g c).Step.Requires,
      ∀ y, Reachable g input y → (∃ cr ∈ (g y).Step.Creates, Matches link cr = true) →
        T (g y).Step)
    (nodes sorted : List (Fin n)) (satisfied : List StepLink) (seen : List Step)
    (inv : StuckInv g input T x nodes sorted satisfied seen) :
    StuckInv g input T x (runPass g sorted satisfied seen nodes).waiting
      (runPass g sorted satisfied seen nodes).sortedNodes
      (runPass g sorted satisfied seen nodes).satisfied
      (runPass g sorted satisfied seen nodes).seen := by
  have hsub := (emittedBy_sublist g nodes satisfied seen).subset
  have hemT : ∀ e ∈ emittedBy g satisfied seen nodes, ¬ T (g e).Step := by
    rw [inv.satisfied_eq]
    exact stuck_emitted g input T hT nodes sorted seen inv.nodes_reachable inv.sorted_ok
  have hsorted2 : ∀ p ∈ (runPass g sorted satisfied seen nodes).sortedNodes,
      Reachable g input p ∧ ¬ T (g p).Step := by
    intro p hp
    rw [runPass_sortedNodes] at hp
    rcases List.mem_append.1 hp with hp | hp
    · exact inv.sorted_ok p hp
    · exact ⟨inv.nodes_reachable p (hsub hp), hemT p hp⟩
  have hseen2 : ∀ s, s ∈ (runPass g sorted satisfied seen nodes).seen
      ↔ s ∈ (runPass g sorted satisfied seen nodes).sortedNodes.map fun p => (g p).Step := by
    intro s
    rw [runPass_seen, runPass_sortedNodes]
    simp only [List.mem_append, List.mem_reverse, List.map_append, inv.seen_iff s]
    tauto
  -- a step that becomes seen in this pass is the step of a node of `nodes`
  have hnew : ∀ s, s ∈ (runPass g sorted satisfied seen nodes).seen → s ∉ seen →
      ∃ e ∈ nodes, (g e).Step = s := by
    intro s hs hs0
    rw [runPass_seen] at hs
    rcases List.mem_append.1 hs with h | h
    · obtain ⟨e, he, heq⟩ := List.mem_map.1 (List.mem_reverse.1 h)
      exact ⟨e, hsub he, heq⟩
    · exact absurd h hs0
  -- the steps in `T` are never seen
  have hTunseen : ∀ z, T (g z).Step → (g z).Step ∉ (runPass g sorted satisfied seen nodes).seen := by
    intro z hz hs
    obtain ⟨p, hp, hpe⟩ := List.mem_map.1 ((hseen2 _).1 hs)
    exact (hsorted2 p hp).2 (hpe ▸ hz)
  have hnodes2 : ∀ w ∈ (runPass g sorted satisfied seen nodes).waiting, Reachable g input w := by
    intro w hw
    rcases fold_waiting_origin g nodes _ w hw with h | ⟨-, h | ⟨a, ha, hc⟩⟩
    · simp [runPass] at h
    · exact inv.nodes_reachable w h
    · exact reachable_child g input a w (inv.nodes_reachable a ha) hc
  refine ⟨hnodes2, hsorted2, ?_, hseen2, ?_⟩
  · rw [runPass_satisfied, runPass_sortedNodes, inv.satisfied_eq, List.flatMap_append]
  · obtain ⟨w, hw, x', hx', hpath⟩ := inv.path
    have hwr : Reachable g input w := inv.nodes_reachable w hw
    -- along the path: a node of the same step is in `nodes`, or the path survives
    have key : ∀ z, Relation.ReflTransGen
        (fun a b => b ∈ (g a).Children ∧ (g b).Step ∉ seen) w z →
        Reachable g input z ∧
        ((∃ z' ∈ nodes, (g z').Step = (g z).Step) ∨
          ∃ v ∈ (runPass g sorted satisfied seen nodes).waiting, ∃ z', (g z').Step = (g z).Step
            ∧ Relation.ReflTransGen (fun a b => b ∈ (g a).Children
                ∧ (g b).Step ∉ (runPass g sorted satisfied seen nodes).seen) v z') := by
      intro z hz
      induction hz with
      | refl => exact ⟨hwr, Or.inl ⟨w, hw, rfl⟩⟩
      | @tail b c _ hbc ih =>
        obtain ⟨hbr, hb⟩ := ih
        have hcr : Reachable g input c := reachable_child g input b c hbr hbc.1
        refine ⟨hcr, ?_⟩
        by_cases hcn : ∃ z' ∈ nodes, (g z').Step = (g c).Step
        · exact Or.inl hcn
        · right
          have hcs : (g c).Step ∉ (runPass g sorted satisfied seen nodes).seen :=
            fun hs => hcn (hnew _ hs hbc.2)
          rcases hb with ⟨b', hb', hbe⟩ | ⟨v, hv, b', hbe, hvb⟩
          · have hcb : c ∈ (g b').Children := by
              rw [hcoh b' b (inv.nodes_reachable b' hb') hbr hbe]
              exact hbc.1
            exact ⟨c, fold_waiting_child g nodes _ b' c hb' hcb hcs, c, rfl,
              Relation.ReflTransGen.refl⟩
          · have hb'r : Reachable g input b' := by
              obtain ⟨y, hy, hp⟩ := hnodes2 v hv
              exact ⟨y, hy, hp.trans (hvb.mono fun _ _ h => h.1)⟩
            have hcb : c ∈ (g b').Children := by
              rw [hcoh b' b hb'r hbr hbe]
              exact hbc.1
            exact ⟨v, hv, c, rfl, hvb.tail ⟨hcb, hcs⟩⟩
    obtain ⟨-, ⟨z', hz', hze⟩ | ⟨v, hv, z', hze, hvz⟩⟩ := key x' hpath
    · have hzs : (g z').Step ∉ (runPass g sorted satisfied seen nodes).seen :=
        hTunseen z' (by rw [hze, hx']; exact hTx)
      exact ⟨z', fold_waiting_self g nodes _ z' hz' hzs, z', hze.trans hx',
        Relation.ReflTransGen.refl⟩
    · exact ⟨v, hv, z', hze.trans hx', hvz⟩

theorem sortLoop_stuck {n : Nat} (g : Graph n) (input : List (Fin n)) (T : Step → Prop)
    (x : Fin n) (hTx : T (g x).Step)
    (hcoh : ∀ a b, Reachable g input a → Reachable g input b → (g a).Step = (g b).Step →
      (g a).Children = (g b).Children)
    (hT : ∀ c, Reachable g input c → T (g c).Step → ∃ link ∈ (g c).Step.Requires,
      ∀ y, Reachable g input y → (∃ cr ∈ (g y).Step.Creates, Matches link cr = true) →
        T (g y).Step)
    (fuel : Nat) :
    ∀ (nodes sorted : List (Fin n)) (satisfied : List StepLink) (seen : List Step)
      (out : SortOutcome n),
      StuckInv g input T x nodes sorted satisfied seen →
      sortLoop g fuel nodes sorted satisfied seen = some out →
      out.nodes = [] ∧ out.err = some "steps are missing dependencies" := by
  induction fuel with
  | zero =>
    intro nodes sorted satisfied seen out inv hrun
    obtain ⟨w, hw, -⟩ := inv.path
    cases nodes with
    | nil => simp at hw
    | cons a rest => simp [sortLoop] at hrun
  | succ fuel ih =>
    intro nodes sorted satisfied seen out inv hrun
    obtain ⟨w, hw, -⟩ := inv.path
    cases nodes with
    | nil => simp at hw
    | cons a rest =>
      rw [sortLoop_succ] at hrun
      split_ifs at hrun with hstuck
      · cases hrun
        exact ⟨rfl, rfl⟩
      · exact ih _ _ _ _ out
          (stuckInv_runPass g input T x hTx hcoh hT (a :: rest) sorted satisfied seen inv) hrun

theorem TopologicalSort_stuck {n : Nat} (g : Graph n) (input : List (Fin n)) (T : Step → Prop)
    (x : Fin n) (hx : Reachable g input x) (hTx : T (g x).Step)
    (hcoh : ∀ a b, Reachable g input a → Reachable g input b → (g a).Step = (g b).Step →
      (g a).Children = (g b).Children)
    (hT : ∀ c, Reachable g input c → T (g c).Step → ∃ link ∈ (g c).Step.Requires,
      ∀ y, Reachable g input y → (∃ cr ∈ (g y).Step.Creates, Matches link cr = true) →
        T (g y).Step) :
    ∃ log, TopologicalSort g input
      = some { nodes := [], err := some "steps are missing dependencies", log := log } := by
  obtain ⟨out, hout⟩ := TopologicalSort_total g input
  have inv : StuckInv g input T x input [] [] [] := by
    refine ⟨fun w hw => ⟨w, hw, Relation.ReflTransGen.refl⟩, by simp, rfl, by simp, ?_⟩
    obtain ⟨y, hy, hp⟩ := hx
    refine ⟨y, hy, x, rfl, hp.mono fun _ _ h => ⟨h, by simp⟩⟩
  obtain ⟨h1, h2⟩ := sortLoop_stuck g input T x hTx hcoh hT (n + 1) input [] [] [] out inv hout
  refine ⟨out.log, ?_⟩
  rw [hout]
  cases out
  simp only at h1 h2
  simp [h1, h2]


theorem fanInSteps_acyclic : ∀ s, ¬ Relation.TransGen
    (fun a b => a ∈ fanInSteps ∧ b ∈ fanInSteps ∧ DependsOn a b = true) s s := by
  apply no_cycle_of_rank _ (fun s => if s.id = 2 then 2 else s.Requires.length)
  rintro a b ⟨ha, hb, hd⟩
  simp only [fanInSteps, List.mem_cons, List.mem_singleton, List.not_mem_nil, or_false] at ha hb
  rcases ha with rfl | rfl | rfl | rfl <;> rcases hb with rfl | rfl | rfl | rfl <;>
    revert hd <;> decide

theorem TopologicalSort_BuildGraph_run (steps : List Step)
    (hacyc : ∀ s, ¬ Relation.TransGen
      (fun a b => a ∈ steps ∧ b ∈ steps ∧ DependsOn a b = true) s s)
    (hsat : ∀ s ∈ steps, ∀ link ∈ s.Requires,
      ∃ t ∈ steps, t ≠ s ∧ ∃ c ∈ t.Creates, Matches link c = true) :
    ∃ order, TopologicalSort (buildNodes steps) (BuildGraph steps)
          = some { nodes := order, err := none, log := [] }
      ∧ (∀ i, steps.get i ∈ order.map fun p => steps.get p)
      ∧ ProducersFirst (buildNodes steps) order
      ∧ (order.map fun p => steps.get p).Nodup := by
  have hacyc2 : ∀ i : Fin steps.length, ¬ Relation.TransGen
      (fun a b => DependsOn (buildNodes steps a).Step (buildNodes steps b).Step = true) i i := by
    intro i hi
    refine hacyc (steps.get i) (Relation.TransGen.lift (fun p => steps.get p) ?_ hi)
    intro a b hab
    exact ⟨List.get_mem _ _ _, List.get_mem _ _ _, hab⟩
  have hsat2 : ∀ i : Fin steps.length, ∀ link ∈ (buildNodes steps i).Step.Requires,
      ∃ j, (buildNodes steps j).Step ≠ (buildNodes steps i).Step
        ∧ ∃ c ∈ (buildNodes steps j).Step.Creates, Matches link c = true := by
    intro i link hlink
    obtain ⟨t, ht, hne, c, hc, hm⟩ := hsat (steps.get i) (List.get_mem _ _ _) link hlink
    obtain ⟨j, rfl⟩ := List.get_of_mem ht
    exact ⟨j, hne, c, hc, hm⟩
  obtain ⟨order, hrun, hall⟩ := sortLoop_complete (buildNodes steps)
    (fun i j => mem_buildNodes_children steps i j) hacyc2 hsat2 (steps.length + 1)
    (BuildGraph steps) [] [] [] rfl (by simp) (frontier_BuildGraph steps)
    (Nat.lt_succ_of_le (unseenCount_le _ []))
  obtain ⟨hpf, hnd⟩ := sortLoop_inv (buildNodes steps) (steps.length + 1) (BuildGraph steps)
    [] [] [] _ rfl (by simp) (by intro pre e post h; simp at h) (by simp) hrun rfl
  exact ⟨order, hrun, hall, hpf, hnd⟩


theorem sortLoop_err {n : Nat} (g : Graph n) (fuel : Nat) :
    ∀ (nodes sorted : List (Fin n)) (satisfied : List StepLink) (seen : List Step)
      (out : SortOutcome n),
      sortLoop g fuel nodes sorted satisfied seen = some out →
      (out.err = none ∧ out.log = [])
        ∨ (out.err = some "steps are missing dependencies" ∧ out.nodes = []) := by
  induction fuel with
  | zero =>
    intro nodes sorted satisfied seen out hrun
    cases nodes with
    | nil => rw [sortLoop_nil] at hrun; cases hrun; exact Or.inl ⟨rfl, rfl⟩
    | cons a rest => simp [sortLoop] at hrun
  | succ fuel ih =>
    intro nodes sorted satisfied seen out hrun
    cases nodes with
    | nil => rw [sortLoop_nil] at hrun; cases hrun; exact Or.inl ⟨rfl, rfl⟩
    | cons a rest =>
      rw [sortLoop_succ] at hrun
      split_ifs at hrun with hstuck
      · cases hrun; exact Or.inr ⟨rfl, rfl⟩
      · exact ih _ _ _ _ out hrun


/-! ## The order within a pass -/


theorem sortPasses_nil {n : Nat} (g : Graph n) (fuel : Nat) (sorted : List (Fin n))
    (satisfied : List StepLink) (seen : List Step) :
    sortPasses g fuel [] sorted satisfied seen = [] := by
  cases fuel <;> rfl

theorem sortPasses_succ {n : Nat} (g : Graph n) (fuel : Nat) (a : Fin n) (rest sorted : List (Fin n))
    (satisfied : List StepLink) (seen : List Step) :
    sortPasses g (fuel + 1) (a :: rest) sorted satisfied seen
      = (a :: rest, (runPass g sorted satisfied seen (a :: rest)).sortedNodes.drop sorted.length) ::
        (if !(runPass g sorted satisfied seen (a :: rest)).changed
            && (runPass g sorted satisfied seen (a :: rest)).waiting.length > 0 then []
         else sortPasses g fuel (runPass g sorted satisfied seen (a :: rest)).waiting
            (runPass g sorted satisfied seen (a :: rest)).sortedNodes
            (runPass g sorted satisfied seen (a :: rest)).satisfied
            (runPass g sorted satisfied seen (a :: rest)).seen) := rfl

theorem sortLoop_passes {n : Nat} (g : Graph n) (fuel : Nat) :
    ∀ (nodes sorted : List (Fin n)) (satisfied : List StepLink) (seen : List Step)
      (out : SortOutcome n),
      sortLoop g fuel nodes sorted satisfied seen = some out → out.err = none →
      out.nodes = sorted ++ ((sortPasses g fuel nodes sorted satisfied seen).map Prod.snd).flatten
        ∧ ∀ p ∈ sortPasses g fuel nodes sorted satisfied seen, p.2.Sublist p.1 := by
  induction fuel with
  | zero =>
    intro nodes sorted satisfied seen out hrun herr
    cases nodes with
    | nil => rw [sortLoop_nil] at hrun; cases hrun; simp [sortPasses_nil]
    | cons a rest => simp [sortLoop] at hrun
  | succ fuel ih =>
    intro nodes sorted satisfied seen out hrun herr
    cases nodes with
    | nil => rw [sortLoop_nil] at hrun; cases hrun; simp [sortPasses_nil]
    | cons a rest =>
      rw [sortLoop_succ] at hrun
      rw [sortPasses_succ]
      split_ifs at hrun ⊢ with hstuck
      · cases hrun; simp at herr
      · obtain ⟨h1, h2⟩ := ih _ _ _ _ out hrun herr
        have hdrop : (runPass g sorted satisfied seen (a :: rest)).sortedNodes.drop sorted.length
            = emittedBy g satisfied seen (a :: rest) := by
          rw [runPass_sortedNodes, List.drop_left]
        constructor
        · rw [h1, hdrop, runPass_sortedNodes]
          simp
        · intro p hp
          rcases List.mem_cons.1 hp with rfl | hp
          · rw [hdrop]
            exact emittedBy_sublist g _ _ _
          · exact h2 p hp

theorem emittedBy_all {n : Nat} (g : Graph n) (nodes : List (Fin n)) (satisfied : List StepLink)
    (seen : List Step) (hnd : (nodes.map fun a => (g a).Step).Nodup)
    (hseen : ∀ a ∈ nodes, (g a).Step ∉ seen) (hreq : ∀ a ∈ nodes, (g a).Step.Requires = []) :
    emittedBy g satisfied seen nodes = nodes := by
  induction nodes generalizing satisfied seen with
  | nil => rfl
  | cons a rest ih =>
    have ha : (g a).Step ∉ seen := hseen a (List.mem_cons_self _ _)
    have hr : HasAllLinks (g a).Step.Requires satisfied = true := by
      rw [hreq a (List.mem_cons_self _ _)]; rfl
    simp only [emittedBy, ha, hr, if_false, Bool.not_true, Bool.false_eq_true]
    rw [List.map_cons, List.nodup_cons] at hnd
    rw [ih _ _ hnd.2 ?_ (fun b hb => hreq b (List.mem_cons_of_mem _ hb))]
    intro b hb hs
    rcases List.mem_cons.1 hs with h | h
    · exact hnd.1 (h ▸ List.mem_map_of_mem _ hb)
    · exact hseen b (List.mem_cons_of_mem _ hb) h

theorem fold_waiting_leaves {n : Nat} (g : Graph n) (nodes : List (Fin n)) (st : PassState n)
    (h : ∀ a ∈ nodes, (g a).Step.Requires = [] ∧ (g a).Children = []) :
    (nodes.foldl (visitNode g) st).waiting = st.waiting := by
  induction nodes generalizing st with
  | nil => rfl
  | cons a rest ih =>
    rw [List.foldl_cons, ih _ (fun b hb => h b (List.mem_cons_of_mem _ hb))]
    obtain ⟨h1, h2⟩ := h a (List.mem_cons_self _ _)
    have hr : HasAllLinks (g a).Step.Requires st.satisfied = true := by rw [h1]; rfl
    unfold visitNode
    simp only [h2, hr, visitChildren, List.foldl_nil, Bool.not_true, Bool.false_eq_true, if_false]
    split_ifs <;> rfl


/-! ## The digraph dump -/


theorem writeLines_append {σ : Type} (w : Writer σ) (xs ys : List String) (s : σ) :
    writeLines w (xs ++ ys) s
      = match writeLines w xs s with
        | (s1, some err) => (s1, some err)
        | (s1, none) => writeLines w ys s1 := by
  induction xs generalizing s with
  | nil => rfl
  | cons x xs ih =>
    show (match w.Write s x with
          | (s1, some err) => (s1, some err)
          | (s1, none) => writeLines w (xs ++ ys) s1)
        = match (match w.Write s x with
                 | (s1, some err) => (s1, some err)
                 | (s1, none) => writeLines w xs s1) with
          | (s1, some err) => (s1, some err)
          | (s1, none) => writeLines w ys s1
    generalize w.Write s x = r
    rcases r with ⟨s1, _ | err⟩
    · exact ih s1
    · rfl

/-- The lines that one consumer contributes. -/
theorem printEdges_eq {σ : Type} (w : Writer σ) (step : Step) (others : List Step) (s : σ) :
    printEdges w step others s
      = writeLines w ((others.filter fun producer =>
            decide (step ≠ producer) && HasAnyLinks step.Requires producer.Creates).map
          fun producer => step.Name ++ " " ++ producer.Name ++ "\n") s := by
  induction others generalizing s with
  | nil => rfl
  | cons other rest ih =>
    rw [List.filter_cons]
    by_cases h1 : step = other
    · have hd : (decide (step ≠ other) && HasAnyLinks step.Requires other.Creates) = false := by
        simp [h1]
      rw [hd]
      simp only [printEdges, h1, if_true]
      rw [← h1]
      exact ih s
    · by_cases h2 : HasAnyLinks step.Requires other.Creates = true
      · have hd : (decide (step ≠ other) && HasAnyLinks step.Requires other.Creates) = true := by
          simp [h1, h2]
        rw [hd]
        simp only [printEdges, h1, h2, if_false, if_true, List.map_cons, writeLines]
        generalize w.Write s (step.Name ++ " " ++ other.Name ++ "\n") = r
        rcases r with ⟨s1, _ | err⟩
        · exact ih s1
        · rfl
      · have hd : (decide (step ≠ other) && HasAnyLinks step.Requires other.Creates) = false := by
          simp [h2]
        rw [hd]
        simp only [printEdges, h1, h2, if_false]
        exact ih s

theorem printSteps_eq {σ : Type} (w : Writer σ) (steps rest : List Step) (s : σ) :
    printSteps w steps rest s
      = writeLines w (rest.flatMap fun consumer =>
          (steps.filter fun producer =>
              decide (consumer ≠ producer) && HasAnyLinks consumer.Requires producer.Creates).map
            fun producer => consumer.Name ++ " " ++ producer.Name ++ "\n") s := by
  induction rest generalizing s with
  | nil => rfl
  | cons step rest ih =>
    rw [List.flatMap_cons, writeLines_append, ← printEdges_eq]
    show (match printEdges w step steps s with
          | (s1, some err) => (s1, some err)
          | (s1, none) => printSteps w steps rest s1) = _
    generalize printEdges w step steps s = r
    rcases r with ⟨s1, _ | err⟩
    · exact ih s1
    · rfl

theorem writeLines_buffer (lines : List String) (buffer : String) :
    writeLines bufferWriter lines buffer = (lines.foldl (fun b line => b ++ line) buffer, none) := by
  induction lines generalizing buffer with
  | nil => rfl
  | cons line rest ih => exact ih (buffer ++ line)


/-! ## Tagging the output image -/

theorem Run_not_dry {σ : Type} (PipelineImageStream : String)
    (Marshal : ImageStreamTag → Except String String) (s : outputImageTagStep σ) (st : σ) :
    (s.Run PipelineImageStream Marshal st false).err
      = match (s.resolved PipelineImageStream st).2 with
        | .error err => some (.couldNotResolveBaseImage err)
        | .ok src =>
            match (s.deleted PipelineImageStream st src).2.filter fun err => !IsNotFound err with
            | some err => some (.api err)
            | none => ((s.created PipelineImageStream st src).2.filter
                fun err => !IsAlreadyExists err).map StepError.api := by
  unfold outputImageTagStep.created outputImageTagStep.deleted outputImageTagStep.resolved
  simp only [outputImageTagStep.Run, Bool.not_false, if_true, Bool.false_eq_true, if_false]
  rcases hg : s.istClient.Get st s.jobSpec.Namespace (PipelineImageStream ++ ":" ++ s.config.From)
    with ⟨st1, err | src⟩
  · rfl
  · simp only
    rcases hd : (s.istClient.Delete st1 s.jobSpec.Namespace
      (s.ist PipelineImageStream src.ImageName).Name) with ⟨st2, _ | derr⟩
    · rfl
    · simp only [Option.filter]
      split_ifs <;> rfl


/-! ## More passes than needed -/

theorem sortLoop_fuel_succ {n : Nat} (g : Graph n) (fuel : Nat) :
    ∀ (nodes sorted : List (Fin n)) (satisfied : List StepLink) (seen : List Step)
      (out : SortOutcome n),
      sortLoop g fuel nodes sorted satisfied seen = some out →
      sortLoop g (fuel + 1) nodes sorted satisfied seen = some out := by
  induction fuel with
  | zero =>
    intro nodes sorted satisfied seen out hrun
    cases nodes with
    | nil => rw [sortLoop_nil] at hrun ⊢; exact hrun
    | cons a rest => simp [sortLoop] at hrun
  | succ fuel ih =>
    intro nodes sorted satisfied seen out hrun
    cases nodes with
    | nil => rw [sortLoop_nil] at hrun ⊢; exact hrun
    | cons a rest =>
      rw [sortLoop_succ] at hrun ⊢
      split_ifs at hrun ⊢ with hstuck
      · exact hrun
      · exact ih _ _ _ _ out hrun

theorem sortLoop_fuel_le {n : Nat} (g : Graph n) (fuel fuel2 : Nat) (hle : fuel ≤ fuel2)
    (nodes sorted : List (Fin n)) (satisfied : List StepLink) (seen : List Step)
    (out : SortOutcome n) (hrun : sortLoop g fuel nodes sorted satisfied seen = some out) :
    sortLoop g fuel2 nodes sorted satisfied seen = some out := by
  induction hle with
  | refl => exact hrun
  | step _ ih => exact sortLoop_fuel_succ g _ _ _ _ _ out ih


/-! ## Provides -/

theorem string_length_eq_zero (s : String) : s.length = 0 ↔ s = "" := by
  constructor
  · intro h
    apply String.ext
    exact List.length_eq_zero.1 h
  · rintro rfl
    rfl

theorem string_length_pos (s : String) : s.length > 0 ↔ s ≠ "" := by
  rw [← not_iff_not, not_not, ← string_length_eq_zero]
  omega


/-! ## The overrides of the cluster install test and the comparison of step lists -/

theorem lookup_setOverride (overrides : List (String × String)) (name value key : String) :
    (setOverride overrides name value).lookup key
      = if key = name then some value else overrides.lookup key := by
  unfold setOverride
  by_cases h : key = name
  · subst h
    simp [List.lookup]
  · have hb : (key == name) = false := by simpa using h
    simp only [List.lookup, hb, h, if_false]
    induction overrides with
    | nil => rfl
    | cons e rest ih =>
      obtain ⟨k, v⟩ := e
      by_cases hk : k = name
      · subst hk
        have hkk : (key == k) = false := by simpa using h
        simp [List.filter, List.lookup, hkk, ih]
      · have hne : (k != name) = true := by simpa using hk
        simp only [List.filter, hne, List.lookup]
        cases hkey : key == k
        · exact ih
        · rfl

/-- The overrides after the loop over the parameters of the template. -/
theorem lookup_visitParameters (config : OpenshiftInstallerClusterTestConfiguration)
    (testConfig : TestStepConfiguration) (HasInput : String → Bool)
    (ps : List TemplateParameter) (acc : List TemplateParameter × List (String × String))
    (key : String) :
    (ps.foldl (visitParameter config testConfig HasInput) acc).2.lookup key
      = if key = "JOB_NAME_SAFE" ∧ (∃ p ∈ ps, p.Name = "JOB_NAME_SAFE")
            ∧ HasInput "JOB_NAME_SAFE" = false
        then some testConfig.As else acc.2.lookup key := by
  induction ps generalizing acc with
  | nil => simp
  | cons p rest ih =>
    rw [List.foldl_cons, ih]
    by_cases hp : p.Name = "JOB_NAME_SAFE"
    · cases hin : HasInput "JOB_NAME_SAFE"
      · by_cases hk : key = "JOB_NAME_SAFE"
        · simp [visitParameter, hp, hin, hk, lookup_setOverride]
        · simp [visitParameter, hp, hin, hk, lookup_setOverride]
      · simp [visitParameter, hp, hin]
    · have h2 : (visitParameter config testConfig HasInput acc p).2 = acc.2 := by
        unfold visitParameter
        simp only [hp, if_false]
        split_ifs <;> rfl
      rw [h2]
      simp [hp]

/-- What the override set of `E2ETestStep` holds under a name. -/
theorem lookup_E2ETestStep (template : Template)
    (config : OpenshiftInstallerClusterTestConfiguration) (testConfig : TestStepConfiguration)
    (HasInput : String → Bool) (key : String) :
    (E2ETestStep template config testConfig HasInput).overrides.lookup key
      = if key = "IMAGE_INSTALLER" ∧ config.Upgrade = true
            ∧ HasInput "IMAGE_INSTALLER" = false
        then some "stable-initial:installer"
        else if key = "JOB_NAME_SAFE" ∧ (∃ p ∈ template.Parameters, p.Name = "JOB_NAME_SAFE")
            ∧ HasInput "JOB_NAME_SAFE" = false
        then some testConfig.As else none := by
  cases hu : config.Upgrade
  · have h : (E2ETestStep template config testConfig HasInput).overrides
        = (template.Parameters.foldl (visitParameter config testConfig HasInput) ([], [])).2 := by
      simp [E2ETestStep, hu]
    rw [h, lookup_visitParameters]
    simp
  · cases hin : HasInput "IMAGE_INSTALLER"
    · have h : (E2ETestStep template config testConfig HasInput).overrides
          = setOverride
              (template.Parameters.foldl (visitParameter config testConfig HasInput) ([], [])).2
              "IMAGE_INSTALLER" "stable-initial:installer" := by
        simp [E2ETestStep, hu, hin]
      rw [h, lookup_setOverride, lookup_visitParameters]
      by_cases hk : key = "IMAGE_INSTALLER"
      · simp [hk]
      · simp [hk]
    · have h : (E2ETestStep template config testConfig HasInput).overrides
          = (template.Parameters.foldl (visitParameter config testConfig HasInput) ([], [])).2 := by
        simp [E2ETestStep, hu, hin]
      rw [h, lookup_visitParameters]
      simp

theorem otherContains_iff {α : Type} [DecidableEq α] (item : α) (second : List α) :
    otherContains item second = true ↔ item ∈ second := by
  unfold otherContains
  have key : ∀ (l : List α) (found : Bool),
      l.foldl (fun found other => if item = other then true else found) found = true
        ↔ found = true ∨ item ∈ l := by
    intro l
    induction l with
    | nil => simp
    | cons x xs ih =>
      intro found
      rw [List.foldl_cons, ih]
      by_cases hx : item = x
      · simp [hx]
      · simp [hx]
  simpa using key second false

theorem allContained_iff {α : Type} [DecidableEq α] (first second : List α) :
    allContained second first = true ↔ ∀ item ∈ first, item ∈ second := by
  induction first with
  | nil => simp [allContained]
  | cons x xs ih =>
    simp only [allContained, List.mem_cons, forall_eq_or_imp]
    by_cases hx : otherContains x second = true
    · simp [hx, ih, (otherContains_iff x second).1 hx]
    · have hx2 : x ∉ second := fun h => hx ((otherContains_iff x second).2 h)
      simp [hx, hx2]


/-! ## Properties of `TopologicalSort` -/

/-- C1. When `TopologicalSort` returns without error, every requirement of every node of
the returned order is matched by a link created by a node that stands strictly before it
in the order, and that node carries another step: what a node creates itself never counts
towards its own requirements. -/
theorem TopologicalSort_requirements_created_before {n : Nat} (g : Graph n)
    (nodes : List (Fin n)) (out : SortOutcome n)
    (hrun : TopologicalSort g nodes = some out) (herr : out.err = none) :
    ∀ pre e post, out.nodes = pre ++ e :: post → ∀ link ∈ (g e).Step.Requires,
      ∃ p ∈ pre, (g p).Step ≠ (g e).Step ∧ ∃ c ∈ (g p).Step.Creates, Matches link c = true := by
  obtain ⟨hpf, hnd⟩ := sortLoop_inv g (n + 1) nodes [] [] [] out rfl (by simp)
    (by intro pre e post h; simp at h) (by simp) hrun herr
  intro pre e post hsplit link hlink
  obtain ⟨p, hp, c, hc, hm⟩ := hpf pre e post hsplit link hlink
  refine ⟨p, hp, ?_, c, hc, hm⟩
  intro heq
  rw [hsplit, List.map_append, List.map_cons] at hnd
  have := (List.nodup_append.1 hnd).2.2
  exact this (List.mem_map_of_mem _ hp) (by simp [heq])

/-- The example graph (`Root` before `Source`) satisfies C1: it is sorted without error. -/
theorem TopologicalSort_requirements_created_before_witness :
    TopologicalSort exampleGraph [1] = some { nodes := [1, 0], err := none, log := [] }
      ∧ ∀ pre e post, [(1 : Fin 2), 0] = pre ++ e :: post →
          ∀ link ∈ (exampleGraph e).Step.Requires,
            ∃ p ∈ pre, (exampleGraph p).Step ≠ (exampleGraph e).Step
              ∧ ∃ c ∈ (exampleGraph p).Step.Creates, Matches link c = true :=
  ⟨by decide,
   TopologicalSort_requirements_created_before exampleGraph [1]
     { nodes := [1, 0], err := none, log := [] } (by decide) rfl⟩


/-- C2. For a step list without a dependency cycle in which every required link is matched
by a link that another step of the list creates, `TopologicalSort` applied to the graph of
the list (the roots as input, the children of a node being the nodes that require a link it
creates) returns no error, and in the returned order every step of the list appears exactly
once and nothing else appears: the order is a permutation of the list. -/
theorem TopologicalSort_BuildGraph_permutation (steps : List Step)
    (hacyc : ∀ s, ¬ Relation.TransGen
      (fun a b => a ∈ steps ∧ b ∈ steps ∧ DependsOn a b = true) s s)
    (hsat : ∀ s ∈ steps, ∀ link ∈ s.Requires,
      ∃ t ∈ steps, t ≠ s ∧ ∃ c ∈ t.Creates, Matches link c = true) :
    ∃ order, TopologicalSort (buildNodes steps) (BuildGraph steps)
          = some { nodes := order, err := none, log := [] }
      ∧ (order.map fun p => steps.get p).Nodup
      ∧ (∀ s, s ∈ (order.map fun p => steps.get p) ↔ s ∈ steps)
      ∧ (steps.Nodup → (order.map fun p => steps.get p).Perm steps) := by
  obtain ⟨order, hrun, hall, -, hnd⟩ := TopologicalSort_BuildGraph_run steps hacyc hsat
  have hmem : ∀ s, s ∈ (order.map fun p => steps.get p) ↔ s ∈ steps := by
    intro s
    constructor
    · intro hs
      obtain ⟨p, -, rfl⟩ := List.mem_map.1 hs
      exact List.get_mem _ _ _
    · intro hs
      obtain ⟨j, rfl⟩ := List.get_of_mem hs
      exact hall j
  exact ⟨order, hrun, hnd, hmem, fun hsn => (List.perm_ext_iff_of_nodup hnd hsn).2 hmem⟩

/-- The steps of the literal example satisfy the hypotheses of C2. -/
theorem TopologicalSort_BuildGraph_permutation_witness :
    ∃ order, TopologicalSort (buildNodes exampleSteps) (BuildGraph exampleSteps)
          = some { nodes := order, err := none, log := [] }
      ∧ (order.map fun p => exampleSteps.get p).Nodup
      ∧ (∀ s, s ∈ (order.map fun p => exampleSteps.get p) ↔ s ∈ exampleSteps)
      ∧ (exampleSteps.Nodup → (order.map fun p => exampleSteps.get p).Perm exampleSteps) :=
  TopologicalSort_BuildGraph_permutation exampleSteps exampleSteps_acyclic (by decide)

/-- C3, as stated, fails. The steps `A`, `D`, `B`, `C` have no dependency cycle and every
requirement has a creator among the other steps; `TopologicalSort` returns the order
`A, D, B, C`; `C` creates the link that `B` requires, yet `C` stands after `B`, so not
all producers of the links a node requires stand before it. -/
theorem TopologicalSort_all_producers_first_counterexample :
    (∀ s, ¬ Relation.TransGen
      (fun a b => a ∈ fanInSteps ∧ b ∈ fanInSteps ∧ DependsOn a b = true) s s)
    ∧ (∀ s ∈ fanInSteps, ∀ link ∈ s.Requires,
        ∃ t ∈ fanInSteps, t ≠ s ∧ ∃ c ∈ t.Creates, Matches link c = true)
    ∧ ∃ order, TopologicalSort (buildNodes fanInSteps) (BuildGraph fanInSteps)
          = some { nodes := order, err := none, log := [] }
        ∧ (order.map fun p => (fanInSteps.get p).Name) = ["A", "D", "B", "C"]
        ∧ ¬ (∀ pre e post, order = pre ++ e :: post →
              ∀ p, DependsOn (fanInSteps.get e) (fanInSteps.get p) = true → p ∈ pre) := by
  refine ⟨fanInSteps_acyclic, by decide,
    [⟨0, by decide⟩, ⟨1, by decide⟩, ⟨2, by decide⟩, ⟨3, by decide⟩], by decide, by decide, ?_⟩
  intro h
  have := h [⟨0, by decide⟩, ⟨1, by decide⟩] ⟨2, by decide⟩ [⟨3, by decide⟩] rfl
    ⟨3, by decide⟩ (by decide)
  revert this
  decide

/-- C3, amended. For a step list without a dependency cycle in which every required link
is matched by a link that another step creates, `TopologicalSort` returns an order in which
every link that a node requires is matched by a link of at least one producer (another step
that the node depends on) standing strictly before the node. -/
theorem TopologicalSort_BuildGraph_some_producer_first (steps : List Step)
    (hacyc : ∀ s, ¬ Relation.TransGen
      (fun a b => a ∈ steps ∧ b ∈ steps ∧ DependsOn a b = true) s s)
    (hsat : ∀ s ∈ steps, ∀ link ∈ s.Requires,
      ∃ t ∈ steps, t ≠ s ∧ ∃ c ∈ t.Creates, Matches link c = true) :
    ∃ order, TopologicalSort (buildNodes steps) (BuildGraph steps)
          = some { nodes := order, err := none, log := [] }
      ∧ ∀ pre e post, order = pre ++ e :: post → ∀ link ∈ (steps.get e).Requires,
          ∃ p ∈ pre, DependsOn (steps.get e) (steps.get p) = true
            ∧ ∃ c ∈ (steps.get p).Creates, Matches link c = true := by
  obtain ⟨order, hrun, -, hpf, hnd⟩ := TopologicalSort_BuildGraph_run steps hacyc hsat
  refine ⟨order, hrun, ?_⟩
  intro pre e post hsplit link hlink
  obtain ⟨p, hp, c, hc, hm⟩ := hpf pre e post hsplit link hlink
  refine ⟨p, hp, ?_, c, hc, hm⟩
  have hne : steps.get e ≠ steps.get p := by
    intro heq
    rw [hsplit, List.map_append, List.map_cons] at hnd
    exact (List.nodup_append.1 hnd).2.2 (List.mem_map_of_mem _ hp)
      (List.mem_cons.2 (Or.inl (show steps.get p = steps.get e from heq.symm)))
  simp only [DependsOn, Bool.and_eq_true, decide_eq_true_eq, HasAnyLinks_iff]
  exact ⟨hne, link, hlink, c, hc, hm⟩

/-- The steps `A`, `D`, `B`, `C` satisfy the hypotheses of the amended C3. -/
theorem TopologicalSort_BuildGraph_some_producer_first_witness :
    ∃ order, TopologicalSort (buildNodes fanInSteps) (BuildGraph fanInSteps)
          = some { nodes := order, err := none, log := [] }
      ∧ ∀ pre e post, order = pre ++ e :: post → ∀ link ∈ (fanInSteps.get e).Requires,
          ∃ p ∈ pre, DependsOn (fanInSteps.get e) (fanInSteps.get p) = true
            ∧ ∃ c ∈ (fanInSteps.get p).Creates, Matches link c = true :=
  TopologicalSort_BuildGraph_some_producer_first fanInSteps fanInSteps_acyclic (by decide)


/-- C4, as stated, fails. In `sharedStepGraph` node 2 (`X`) is reachable from the input
`[3, 0]` and requires a link that no node creates, yet `TopologicalSort` returns the
order `[3, 0]` and no error: node 3 puts the step `Q` into `seen`, so node 0 does not
hand its child, node 1 with the same step, to the next pass, and `X` is never visited. -/
theorem TopologicalSort_missing_link_counterexample :
    Reachable sharedStepGraph [3, 0] 2
    ∧ StepLink.InternalImageLink "foo" ∈ (sharedStepGraph 2).Step.Requires
    ∧ (∀ y, Reachable sharedStepGraph [3, 0] y → y ≠ 2 →
        ∀ c ∈ (sharedStepGraph y).Step.Creates,
          Matches (StepLink.InternalImageLink "foo") c = false)
    ∧ TopologicalSort sharedStepGraph [3, 0]
        = some { nodes := [3, 0], err := none, log := [] } := by
  refine ⟨⟨0, by decide, ?_⟩, by decide, ?_, by decide⟩
  · exact (Relation.ReflTransGen.single (show (1 : Fin 4) ∈ (sharedStepGraph 0).Children by
      decide)).tail (show (2 : Fin 4) ∈ (sharedStepGraph 1).Children by decide)
  · have h : ∀ y : Fin 4, y ≠ 2 → ∀ c ∈ (sharedStepGraph y).Step.Creates,
        Matches (StepLink.InternalImageLink "foo") c = false := by decide
    exact fun y _ => h y

/-- C4, amended. When the nodes reachable from the input that carry the same step have the
same children, and some node that is in the input or reachable from it requires a link
that no other reachable node creates, `TopologicalSort` returns a non-nil error and a nil
node list. -/
theorem TopologicalSort_missing_link_error {n : Nat} (g : Graph n) (nodes : List (Fin n))
    (x : Fin n) (link : StepLink)
    (hcoh : ∀ a b, Reachable g nodes a → Reachable g nodes b → (g a).Step = (g b).Step →
      (g a).Children = (g b).Children)
    (hx : Reachable g nodes x) (hlink : link ∈ (g x).Step.Requires)
    (hnone : ∀ y, Reachable g nodes y → y ≠ x →
      ∀ c ∈ (g y).Step.Creates, Matches link c = false) :
    ∃ msg log, TopologicalSort g nodes = some { nodes := [], err := some msg, log := log } := by
  obtain ⟨log, hrun⟩ := TopologicalSort_stuck g nodes (fun s => s = (g x).Step) x hx rfl hcoh
    (by
      intro c _ hc
      refine ⟨link, by rw [hc]; exact hlink, ?_⟩
      rintro y hy ⟨cr, hcr, hm⟩
      by_contra hne
      have hyx : y ≠ x := fun h => hne (by rw [h])
      rw [hnone y hy hyx cr hcr] at hm
      exact Bool.false_ne_true hm)
  exact ⟨_, log, hrun⟩

/-- The chain `Y → Q → X`, with distinct steps, satisfies the hypotheses of the amended C4. -/
theorem TopologicalSort_missing_link_error_witness :
    ∃ msg log, TopologicalSort missingGraph [0]
      = some { nodes := [], err := some msg, log := log } :=
  TopologicalSort_missing_link_error missingGraph [0] 2 (StepLink.InternalImageLink "foo")
    (fun a b _ _ => (by decide : ∀ a b : Fin 3, (missingGraph a).Step = (missingGraph b).Step →
      (missingGraph a).Children = (missingGraph b).Children) a b)
    ⟨0, by decide, (Relation.ReflTransGen.single (show (1 : Fin 3) ∈ (missingGraph 0).Children by
      decide)).tail (show (2 : Fin 3) ∈ (missingGraph 1).Children by decide)⟩
    (by decide)
    (fun y _ => (by decide : ∀ y : Fin 3, y ≠ 2 → ∀ c ∈ (missingGraph y).Step.Creates,
      Matches (StepLink.InternalImageLink "foo") c = false) y)

/-- C5, as stated, fails. Step `A` requires `internal-image(foo)`, which no step creates;
`TopologicalSort` fails, but the text of the error it returns mentions neither `foo` nor
the name of step `A`. -/
theorem TopologicalSort_error_names_step_counterexample :
    (lonelyGraph 0).Step.Name = "A"
    ∧ (lonelyGraph 0).Step.Requires = [StepLink.InternalImageLink "foo"]
    ∧ ∃ msg log, TopologicalSort lonelyGraph [0]
          = some { nodes := [], err := some msg, log := log }
        ∧ ¬ Mentions msg "foo" ∧ ¬ Mentions msg (lonelyGraph 0).Step.Name :=
  ⟨rfl, rfl, "steps are missing dependencies",
    [{ step := (lonelyGraph 0).Step, missing := [StepLink.InternalImageLink "foo"] }],
    by decide, by decide, by decide⟩

/-- C5, amended. Whenever `TopologicalSort` fails, the error it returns is the fixed text
`steps are missing dependencies` and the node list is nil; the error names no step and no
link. For a step `A` that requires `internal-image(foo)` which nothing creates, step `A`
and the missing link appear in the one line that is logged, and nowhere in the error. -/
theorem TopologicalSort_error_text {n : Nat} (g : Graph n) (nodes : List (Fin n))
    (out : SortOutcome n) (hrun : TopologicalSort g nodes = some out)
    (herr : out.err ≠ none) :
    out.err = some "steps are missing dependencies" ∧ out.nodes = []
    ∧ TopologicalSort lonelyGraph [0]
        = some { nodes := [], err := some "steps are missing dependencies",
                 log := [{ step := (lonelyGraph 0).Step,
                           missing := [StepLink.InternalImageLink "foo"] }] } := by
  rcases sortLoop_err g (n + 1) nodes [] [] [] out hrun with ⟨h, -⟩ | ⟨h1, h2⟩
  · exact absurd h herr
  · exact ⟨h1, h2, by decide⟩

/-- The failing sort of the chain `Y → Q → X` is an instance of the amended C5. -/
theorem TopologicalSort_error_text_witness :
    TopologicalSort missingGraph [0]
        = some { nodes := [], err := some "steps are missing dependencies",
                 log := [{ step := (missingGraph 2).Step,
                           missing := [StepLink.InternalImageLink "foo"] }] }
    ∧ (some "steps are missing dependencies" : Option String) ≠ none
    ∧ TopologicalSort lonelyGraph [0]
        = some { nodes := [], err := some "steps are missing dependencies",
                 log := [{ step := (lonelyGraph 0).Step,
                           missing := [StepLink.InternalImageLink "foo"] }] } :=
  ⟨by decide, by decide,
   (TopologicalSort_error_text missingGraph [0]
      { nodes := [], err := some "steps are missing dependencies",
        log := [{ step := (missingGraph 2).Step,
                  missing := [StepLink.InternalImageLink "foo"] }] }
      (by decide) (by decide)).2.2⟩

/-- C6, as stated, fails. In `sharedStepCycleGraph` the nodes 2 and 3 form a dependency
cycle that is reachable from the input `[4, 0]`, yet `TopologicalSort` returns the order
`[4, 0]` and no error: node 4 puts the step `Q` into `seen`, so node 0 does not hand its
child, node 1 with the same step, to the next pass, and the cycle is never visited. -/
theorem TopologicalSort_cycle_counterexample :
    Reachable sharedStepCycleGraph [4, 0] 2
    ∧ (∀ c ∈ [(2 : Fin 5), 3], ∃ link ∈ (sharedStepCycleGraph c).Step.Requires,
        (∃ y ∈ [(2 : Fin 5), 3], y ≠ c
          ∧ ∃ cr ∈ (sharedStepCycleGraph y).Step.Creates, Matches link cr = true)
        ∧ ∀ y, (∃ cr ∈ (sharedStepCycleGraph y).Step.Creates, Matches link cr = true) →
            y ∈ [(2 : Fin 5), 3] ∧ y ≠ c)
    ∧ TopologicalSort sharedStepCycleGraph [4, 0]
        = some { nodes := [4, 0], err := none, log := [] } := by
  refine ⟨⟨0, by decide, ?_⟩, by decide, by decide⟩
  exact (Relation.ReflTransGen.single (show (1 : Fin 5) ∈ (sharedStepCycleGraph 0).Children by
    decide)).tail (show (2 : Fin 5) ∈ (sharedStepCycleGraph 1).Children by decide)

/-- C6, amended. When the nodes reachable from the input that carry the same step have the
same children, and some node that is in the input or reachable from it lies on a
dependency cycle (every node of `cycle` requires a link that, among the reachable nodes,
only nodes of `cycle` create), `TopologicalSort` ends with an error and a nil node list,
so it emits none of the nodes of the cycle. -/
theorem TopologicalSort_cycle_error {n : Nat} (g : Graph n) (nodes cycle : List (Fin n))
    (x : Fin n)
    (hcoh : ∀ a b, Reachable g nodes a → Reachable g nodes b → (g a).Step = (g b).Step →
      (g a).Children = (g b).Children)
    (hx : Reachable g nodes x) (hxc : x ∈ cycle)
    (hcycle : ∀ c ∈ cycle, ∃ link ∈ (g c).Step.Requires,
      ∀ y, Reachable g nodes y → (∃ cr ∈ (g y).Step.Creates, Matches link cr = true) →
        y ∈ cycle) :
    ∃ msg log, TopologicalSort g nodes = some { nodes := [], err := some msg, log := log } := by
  obtain ⟨log, hrun⟩ := TopologicalSort_stuck g nodes (fun s => ∃ c ∈ cycle, (g c).Step = s) x
    hx ⟨x, hxc, rfl⟩ hcoh
    (by
      rintro c' _ ⟨c, hc, hce⟩
      obtain ⟨link, hlink, honly⟩ := hcycle c hc
      refine ⟨link, by rw [← hce]; exact hlink, ?_⟩
      intro y hy hm
      exact ⟨y, honly y hy hm, rfl⟩)
  exact ⟨_, log, hrun⟩

/-- The chain into the cycle `C1 ⇄ C2` satisfies the hypotheses of the amended C6. -/
theorem TopologicalSort_cycle_error_witness :
    ∃ msg log, TopologicalSort cycleGraph [0]
      = some { nodes := [], err := some msg, log := log } :=
  TopologicalSort_cycle_error cycleGraph [0] [2, 3] 2
    (fun a b _ _ => (by decide : ∀ a b : Fin 4, (cycleGraph a).Step = (cycleGraph b).Step →
      (cycleGraph a).Children = (cycleGraph b).Children) a b)
    ⟨0, by decide, (Relation.ReflTransGen.single (show (1 : Fin 4) ∈ (cycleGraph 0).Children by
      decide)).tail (show (2 : Fin 4) ∈ (cycleGraph 1).Children by decide)⟩
    (by decide)
    (by
      have h : ∀ c ∈ [(2 : Fin 4), 3], ∃ link ∈ (cycleGraph c).Step.Requires,
          ∀ y, (∃ cr ∈ (cycleGraph y).Step.Creates, Matches link cr = true) →
            y ∈ [(2 : Fin 4), 3] := by decide
      intro c hc
      obtain ⟨link, hl, hy⟩ := h c hc
      exact ⟨link, hl, fun y _ hm => hy y hm⟩)


/-- C7. Within a pass `TopologicalSort` emits nodes in input order: the order it returns is
the concatenation, pass after pass, of the nodes emitted in each pass, and the nodes
emitted in a pass stand in the same relative order as in the node list of that pass. In
particular, an input list of nodes with pairwise distinct steps, no requirements and no
children is returned as it is. -/
theorem TopologicalSort_pass_order {n : Nat} (g : Graph n) (nodes : List (Fin n)) :
    (∀ out, TopologicalSort g nodes = some out → out.err = none →
        out.nodes = ((sortPasses g (n + 1) nodes [] [] []).map Prod.snd).flatten
        ∧ (∀ p ∈ (sortPasses g (n + 1) nodes [] [] []).head?, p.1 = nodes)
        ∧ ∀ p ∈ sortPasses g (n + 1) nodes [] [] [], p.2.Sublist p.1)
    ∧ ((nodes.map fun a => (g a).Step).Nodup →
        (∀ a ∈ nodes, (g a).Step.Requires = [] ∧ (g a).Children = []) →
        TopologicalSort g nodes = some { nodes := nodes, err := none, log := [] }) := by
  constructor
  · intro out hrun herr
    obtain ⟨h1, h2⟩ := sortLoop_passes g (n + 1) nodes [] [] [] out hrun herr
    refine ⟨by simpa using h1, ?_, h2⟩
    intro p hp
    cases nodes with
    | nil => simp [sortPasses_nil] at hp
    | cons a rest =>
      rw [sortPasses_succ] at hp
      simp only [List.head?_cons, Option.mem_def, Option.some.injEq] at hp
      rw [← hp]
  · intro hnd hleaf
    cases nodes with
    | nil => exact sortLoop_nil g _ _ _ _
    | cons a rest =>
      have hem : emittedBy g [] [] (a :: rest) = a :: rest :=
        emittedBy_all g _ _ _ hnd (by simp) (fun b hb => (hleaf b hb).1)
      have hw : (runPass g [] [] [] (a :: rest)).waiting = [] :=
        fold_waiting_leaves g (a :: rest) _ hleaf
      unfold TopologicalSort
      rw [sortLoop_succ, if_neg (by simp [hw]), hw, sortLoop_nil, runPass_sortedNodes, hem]
      rfl

/-- The example graph and three independent nodes are instances of C7. -/
theorem TopologicalSort_pass_order_witness :
    (TopologicalSort exampleGraph [1] = some { nodes := [1, 0], err := none, log := [] }
      ∧ ([1, 0] : List (Fin 2)) = ((sortPasses exampleGraph 3 [1] [] [] []).map Prod.snd).flatten
      ∧ (∀ p ∈ (sortPasses exampleGraph 3 [1] [] [] []).head?, p.1 = [1])
      ∧ ∀ p ∈ sortPasses exampleGraph 3 [1] [] [] [], p.2.Sublist p.1)
    ∧ ((([2, 0, 1] : List (Fin 3)).map fun a => (flatGraph a).Step).Nodup
      ∧ (∀ a ∈ ([2, 0, 1] : List (Fin 3)),
          (flatGraph a).Step.Requires = [] ∧ (flatGraph a).Children = [])
      ∧ TopologicalSort flatGraph [2, 0, 1] = some { nodes := [2, 0, 1], err := none, log := [] }) :=
  ⟨⟨by decide,
    (TopologicalSort_pass_order exampleGraph [1]).1
      { nodes := [1, 0], err := none, log := [] } (by decide) rfl⟩,
   ⟨by decide, by decide,
    (TopologicalSort_pass_order flatGraph [2, 0, 1]).2 (by decide) (by decide)⟩⟩


/-! ## Properties of `PrintDigraph` -/

/-- C8, as stated, fails at its own example. For the steps `Source` (requires `Root`) and
`Root`, `PrintDigraph` writes the text `Source Root` followed by a newline, as the format
`"%s %s\n"` says, and not the text `Source Root` alone. -/
theorem PrintDigraph_example_counterexample :
    (PrintDigraph bufferWriter "" exampleSteps).1 ≠ "Source Root"
    ∧ (PrintDigraph bufferWriter "" exampleSteps).1 = "Source Root\n"
    ∧ (PrintDigraph bufferWriter "" exampleSteps).2 = none := by
  refine ⟨by decide, by decide, by decide⟩

/-- C8, amended. `PrintDigraph` writes exactly the lines `<consumer-name> <producer-name>`,
each ended by a newline, one for each ordered pair of distinct steps (consumer, producer)
with `HasAnyLinks(consumer.Requires(), producer.Creates())`, consumer-major and
producer-minor in the order of the step list, and nothing else: on any writer it makes these
writes in this order (up to the first write that fails, whose error it returns), on a
buffer the text is their concatenation, a step never has an edge to itself, and for the
steps `Source` (requires `Root`) and `Root` the output is the text `Source Root` followed by
a newline. -/
theorem PrintDigraph_writes_edge_lines {σ : Type} (w : Writer σ) (s : σ) (steps : List Step)
    (buffer : String) (step : Step) :
    PrintDigraph w s steps = writeLines w (digraphLines steps) s
    ∧ PrintDigraph bufferWriter buffer steps
        = ((digraphLines steps).foldl (fun b line => b ++ line) buffer, none)
    ∧ PrintDigraph w s [step] = (s, none)
    ∧ PrintDigraph bufferWriter "" exampleSteps = ("Source Root\n", none) := by
  refine ⟨printSteps_eq w steps steps s, ?_, ?_, by decide⟩
  · rw [← writeLines_buffer]
    exact printSteps_eq bufferWriter steps steps buffer
  · simp [PrintDigraph, printSteps, printEdges]


/-! ## Properties of the `Run` methods -/

/-- C9. In dry-run mode `Run` makes no externally observable mutation: for every
configuration, client and external state, `outputImageTagStep.Run` with `dry = true` issues
no `Get`, `Delete` or `Create` on the image stream tag client and leaves the external
state as it was, and `e2eTestStep.Run` with `dry = true` returns nil without a call on the
secret client or on the wrapped step, and leaves the state as it was. -/
theorem Run_dry_no_mutation {σ τ : Type} (PipelineImageStream : String)
    (Marshal : ImageStreamTag → Except String String) (s : outputImageTagStep σ) (st : σ)
    (e : e2eTestStep τ) (st2 : τ) :
    (s.Run PipelineImageStream Marshal st true).calls = []
    ∧ (s.Run PipelineImageStream Marshal st true).state = st
    ∧ (e.Run st2 true).err = none
    ∧ (e.Run st2 true).calls = []
    ∧ (e.Run st2 true).state = st2 := by
  refine ⟨?_, ?_, rfl, rfl, rfl⟩
  · simp only [outputImageTagStep.Run, Bool.not_true, Bool.false_eq_true, if_false, if_true]
    cases Marshal (s.ist PipelineImageStream "dry-fake") <;> rfl
  · simp only [outputImageTagStep.Run, Bool.not_true, Bool.false_eq_true, if_false, if_true]
    cases Marshal (s.ist PipelineImageStream "dry-fake") <;> rfl


/-- C10. `outputImageTagStep.Run` with `dry = false` returns an error if and only if
resolving the source tag fails, or deleting the old target tag fails with an error other
than NotFound, or creating the target tag fails with an error other than AlreadyExists;
when `Create` reports AlreadyExists, `Run` returns nil. -/
theorem outputImageTagStep_Run_error_iff {σ : Type} (PipelineImageStream : String)
    (Marshal : ImageStreamTag → Except String String) (s : outputImageTagStep σ) (st : σ) :
    ((s.Run PipelineImageStream Marshal st false).err ≠ none ↔
      (∃ err, (s.resolved PipelineImageStream st).2 = .error err)
      ∨ ∃ src, (s.resolved PipelineImageStream st).2 = .ok src
          ∧ ((∃ err, (s.deleted PipelineImageStream st src).2 = some err
                ∧ IsNotFound err = false)
            ∨ ∃ err, (s.created PipelineImageStream st src).2 = some err
                ∧ IsAlreadyExists err = false))
    ∧ ∀ src err, (s.resolved PipelineImageStream st).2 = .ok src →
        ¬ (∃ derr, (s.deleted PipelineImageStream st src).2 = some derr
            ∧ IsNotFound derr = false) →
        (s.created PipelineImageStream st src).2 = some err → IsAlreadyExists err = true →
        (s.Run PipelineImageStream Marshal st false).err = none := by
  constructor
  · rw [Run_not_dry]
    rcases hr : (s.resolved PipelineImageStream st).2 with gerr | src
    · simp
    · simp only [reduceCtorEq, exists_false, Except.ok.injEq, exists_eq_left', false_or]
      rcases hd : (s.deleted PipelineImageStream st src).2 with _ | derr
      · rcases hc : (s.created PipelineImageStream st src).2 with _ | cerr
        · simp [Option.filter]
        · cases hae : IsAlreadyExists cerr <;> simp [Option.filter, hae]
      · cases hnf : IsNotFound derr
        · simp [Option.filter, hnf]
        · rcases hc : (s.created PipelineImageStream st src).2 with _ | cerr
          · simp [Option.filter, hnf]
          · cases hae : IsAlreadyExists cerr <;> simp [Option.filter, hae, hnf]
  · intro src err hr hnd hc hae
    rw [Run_not_dry, hr]
    have hdel : ((s.deleted PipelineImageStream st src).2.filter fun err => !IsNotFound err)
        = none := by
      rcases hd : (s.deleted PipelineImageStream st src).2 with _ | derr
      · rfl
      · cases hnf : IsNotFound derr
        · exact absurd ⟨derr, hd, hnf⟩ hnd
        · simp [Option.filter, hnf]
    simp only [hdel, hc]
    simp [Option.filter, hae]

/-- On the client that reports AlreadyExists for every `Create`, `Run` returns nil. -/
theorem outputImageTagStep_Run_error_iff_witness :
    (racedStep.resolved "pipeline" ()).2
        = .ok { Name := "pipeline:src", Namespace := "ci-op-1", Tag := none,
                ImageName := "sha256:abc" }
    ∧ (racedStep.created "pipeline" ()
          { Name := "pipeline:src", Namespace := "ci-op-1", Tag := none,
            ImageName := "sha256:abc" }).2
        = some { reason := StatusReason.AlreadyExists, message := "stable:cli already exists" }
    ∧ (racedStep.Run "pipeline" (fun _ => .ok "") () false).err = none :=
  ⟨rfl, by decide,
   (outputImageTagStep_Run_error_iff "pipeline" (fun _ => .ok "") racedStep ()).2
     { Name := "pipeline:src", Namespace := "ci-op-1", Tag := none, ImageName := "sha256:abc" }
     { reason := StatusReason.AlreadyExists, message := "stable:cli already exists" }
     rfl (by decide) (by decide) (by decide)⟩


/-! ## Idempotence of the output image tag step -/

/-- C11 fails on the code. `Run` tags `pipeline:src` into `stable:cli` in the tag store and
succeeds; `Done`, evaluated on the store that `Run` left, looks up the tag named
`pipeline:` followed by the whole configuration `To` printed as a struct, which `Run` did
not create, and returns `(false, nil)`; a second `Run` deletes and creates the tag again. -/
theorem outputImageTagStep_Done_after_Run :
    (storeStep.Run "pipeline" (fun _ => .ok "") sourceOnlyStore false).err = none
    ∧ ((storeStep.Run "pipeline" (fun _ => .ok "") sourceOnlyStore false).state.map
        fun t => t.Name) = ["pipeline:src", "stable:cli"]
    ∧ (storeStep.Done "pipeline" structText
        (storeStep.Run "pipeline" (fun _ => .ok "") sourceOnlyStore false).state).done = false
    ∧ (storeStep.Done "pipeline" structText
        (storeStep.Run "pipeline" (fun _ => .ok "") sourceOnlyStore false).state).err = none
    ∧ (storeStep.Done "pipeline" structText
        (storeStep.Run "pipeline" (fun _ => .ok "") sourceOnlyStore false).state).calls
        = [TagCall.Get "ci-op-1" "pipeline:\x7b ocp stable cli my-cli\x7d"]
    ∧ ((storeStep.Run "pipeline" (fun _ => .ok "")
        (storeStep.Run "pipeline" (fun _ => .ok "") sourceOnlyStore false).state false).calls.map
        fun c => match c with
          | TagCall.Get _ name => "Get " ++ name
          | TagCall.Delete _ name => "Delete " ++ name
          | TagCall.Create _ ist => "Create " ++ ist.Name)
        = ["Get pipeline:src", "Delete stable:cli", "Create stable:cli"] := by
  refine ⟨by decide, by decide, by decide, by decide, by decide, by decide⟩


/-! ## Termination of `TopologicalSort` -/

/-- C12. `TopologicalSort` terminates on every node list, also when a node occurs several
times in it and when the `Children` edges form a cycle: it returns a result within the
`n + 1` passes it is given, and more passes give the same result. Every pass either emits
a node whose step was not emitted before, or ends the loop: with the error when nodes are
still waiting, with the order sorted so far otherwise. Two nodes that are each other's
child, given as the list `[0, 0, 1]`, are sorted as `[0, 1]`. -/
theorem TopologicalSort_terminates {n : Nat} (g : Graph n) (nodes : List (Fin n)) :
    (∃ out, TopologicalSort g nodes = some out
      ∧ ∀ fuel, n + 1 ≤ fuel → sortLoop g fuel nodes [] [] [] = some out)
    ∧ (∀ (fuel : Nat) (a : Fin n) (rest sorted : List (Fin n)) (satisfied : List StepLink)
        (seen : List Step),
        ((runPass g sorted satisfied seen (a :: rest)).changed = true
          ∧ ∃ e ∈ a :: rest, (g e).Step ∉ seen
              ∧ (g e).Step ∈ (runPass g sorted satisfied seen (a :: rest)).seen
              ∧ e ∈ (runPass g sorted satisfied seen (a :: rest)).sortedNodes)
        ∨ ((runPass g sorted satisfied seen (a :: rest)).changed = false
          ∧ (runPass g sorted satisfied seen (a :: rest)).waiting ≠ []
          ∧ ∃ log, sortLoop g (fuel + 1) (a :: rest) sorted satisfied seen
              = some { nodes := [], err := some "steps are missing dependencies", log := log })
        ∨ ((runPass g sorted satisfied seen (a :: rest)).changed = false
          ∧ (runPass g sorted satisfied seen (a :: rest)).waiting = []
          ∧ sortLoop g (fuel + 1) (a :: rest) sorted satisfied seen
              = some { nodes := sorted, err := none, log := [] }))
    ∧ TopologicalSort loopGraph [0, 0, 1] = some { nodes := [0, 1], err := none, log := [] } := by
  refine ⟨?_, ?_, by decide⟩
  · obtain ⟨out, hout⟩ := TopologicalSort_total g nodes
    exact ⟨out, hout, fun fuel hle => sortLoop_fuel_le g (n + 1) fuel hle nodes [] [] [] out hout⟩
  · intro fuel a rest sorted satisfied seen
    cases hch : (runPass g sorted satisfied seen (a :: rest)).changed with
    | true =>
      left
      refine ⟨rfl, ?_⟩
      rw [runPass_changed] at hch
      cases hem : emittedBy g satisfied seen (a :: rest) with
      | nil => simp [hem] at hch
      | cons e es =>
        refine ⟨e, (emittedBy_sublist g (a :: rest) satisfied seen).subset (by simp [hem]),
          (emittedBy_nodup g (a :: rest) satisfied seen).2 e (by simp [hem]), ?_, ?_⟩
        · rw [runPass_seen, hem]; simp
        · rw [runPass_sortedNodes, hem]; simp
    | false =>
      right
      have hem : emittedBy g satisfied seen (a :: rest) = [] := by
        rw [runPass_changed] at hch
        cases hem : emittedBy g satisfied seen (a :: rest) with
        | nil => rfl
        | cons e es => simp [hem] at hch
      by_cases hw : (runPass g sorted satisfied seen (a :: rest)).waiting = []
      · right
        refine ⟨rfl, hw, ?_⟩
        rw [sortLoop_succ, if_neg (by simp [hw]), hw, sortLoop_nil, runPass_sortedNodes, hem,
          List.append_nil]
      · left
        refine ⟨rfl, hw, missingLog g (runPass g sorted satisfied seen (a :: rest)).satisfied
          (runPass g sorted satisfied seen (a :: rest)).waiting, ?_⟩
        rw [sortLoop_succ, if_pos]
        simp only [hch, Bool.not_false, Bool.true_and, decide_eq_true_eq]
        exact List.length_pos.2 hw


/-! ## Properties of `Provides` -/

/-- C13. `outputImageTagStep.Provides` yields zero or one pair: it returns `(nil, nil)`
exactly when `config.To.As` is empty; otherwise the map has exactly one key, `IMAGE_`
followed by `To.As` with every `-` replaced by `_` and upper-cased, and the gating link is
`ExternalImageLink(To)`. That link is a member of the `Creates()` of the step in both
cases. -/
theorem outputImageTagStep_Provides_zero_or_one {σ : Type} (ToUpper : String → String)
    (s : outputImageTagStep σ) :
    (s.Provides ToUpper = (none, none) ↔ s.config.To.As = "")
    ∧ (s.config.To.As ≠ "" →
        s.Provides ToUpper
          = (some [("IMAGE_" ++ ToUpper (replaceDashes s.config.To.As), s.resolver)],
             some (StepLink.ExternalImageLink s.config.To)))
    ∧ (∀ params link, s.Provides ToUpper = (some params, link) →
        params.length = 1 ∧ link = some (StepLink.ExternalImageLink s.config.To))
    ∧ StepLink.ExternalImageLink s.config.To ∈ s.Creates := by
  have hcases : s.config.To.As = "" ∨ s.config.To.As ≠ "" := em _
  refine ⟨?_, ?_, ?_, ?_⟩
  · rcases hcases with h | h
    · simp [outputImageTagStep.Provides, h]
    · have hl : s.config.To.As.length ≠ 0 := fun hz => h ((string_length_eq_zero _).1 hz)
      simp [outputImageTagStep.Provides, h, hl]
  · intro h
    have hl : s.config.To.As.length ≠ 0 := fun hz => h ((string_length_eq_zero _).1 hz)
    simp [outputImageTagStep.Provides, hl]
  · intro params link hp
    rcases hcases with h | h
    · simp [outputImageTagStep.Provides, h] at hp
    · have hl : s.config.To.As.length ≠ 0 := fun hz => h ((string_length_eq_zero _).1 hz)
      simp only [outputImageTagStep.Provides, beq_iff_eq, hl, if_false, Prod.mk.injEq,
        Option.some.injEq] at hp
      obtain ⟨rfl, rfl⟩ := hp
      exact ⟨rfl, rfl⟩
  · unfold outputImageTagStep.Creates
    split_ifs <;> simp

/-- The step that tags into `stable:cli` under the alias `my-cli` provides the one
parameter `IMAGE_MY_CLI`, gated by the external link of its target. -/
theorem outputImageTagStep_Provides_zero_or_one_witness :
    storeStep.config.To.As ≠ ""
    ∧ ((storeStep.Provides upperASCII).1.map fun params => params.map fun e => e.1)
        = some ["IMAGE_MY_CLI"]
    ∧ (storeStep.Provides upperASCII).2
        = some (StepLink.ExternalImageLink storeStep.config.To)
    ∧ StepLink.ExternalImageLink storeStep.config.To ∈ storeStep.Creates := by
  have h := outputImageTagStep_Provides_zero_or_one upperASCII storeStep
  have hne : storeStep.config.To.As ≠ "" := by decide
  refine ⟨hne, ?_, ?_, h.2.2.2⟩
  · rw [h.2.1 hne]
    decide
  · rw [h.2.1 hne]

/-- C14. The resolver that `outputImageTagStep.Provides` puts into its map returns an error
and the empty text when the lookup of the image stream fails, and when the image stream has
neither a `PublicDockerImageRepository` nor a `DockerImageRepository` value; in every other
case it returns `<registry>:<To.Tag>` and no error, where the registry is
`PublicDockerImageRepository` when that is not empty and `DockerImageRepository`
otherwise. -/
theorem outputImageTagStep_resolver_result {σ : Type} (ToUpper : String → String)
    (s : outputImageTagStep σ) (st : σ) (params : List (String × Resolver σ))
    (link : Option StepLink) (entry : String × Resolver σ)
    (hp : s.Provides ToUpper = (some params, link)) (he : entry ∈ params) :
    (∀ err, (s.isClient.Get st s.jobSpec.Namespace s.config.To.Name).2 = .error err →
        (entry.2 st).2 = ("", some (StepError.api err)))
    ∧ (∀ is, (s.isClient.Get st s.jobSpec.Namespace s.config.To.Name).2 = .ok is →
        is.PublicDockerImageRepository = "" → is.DockerImageRepository = "" →
        (entry.2 st).2.1 = "" ∧ (entry.2 st).2.2 ≠ none)
    ∧ (∀ is, (s.isClient.Get st s.jobSpec.Namespace s.config.To.Name).2 = .ok is →
        is.PublicDockerImageRepository ≠ "" →
        (entry.2 st).2 = (is.PublicDockerImageRepository ++ ":" ++ s.config.To.Tag, none))
    ∧ (∀ is, (s.isClient.Get st s.jobSpec.Namespace s.config.To.Name).2 = .ok is →
        is.PublicDockerImageRepository = "" → is.DockerImageRepository ≠ "" →
        (entry.2 st).2 = (is.DockerImageRepository ++ ":" ++ s.config.To.Tag, none)) := by
  have hentry : entry.2 = s.resolver := by
    unfold outputImageTagStep.Provides at hp
    split_ifs at hp with h
    · simp at hp
    · simp only [Prod.mk.injEq, Option.some.injEq] at hp
      obtain ⟨rfl, -⟩ := hp
      rw [List.mem_singleton.1 he]
  rw [hentry]
  unfold outputImageTagStep.resolver
  rcases hg : s.isClient.Get st s.jobSpec.Namespace s.config.To.Name with ⟨st1, err | is⟩
  · simp
  · refine ⟨by simp, ?_, ?_, ?_⟩
    · intro is2 h2 hpub hdock
      simp only [Except.ok.injEq] at h2
      subst h2
      simp [hpub, hdock]
    · intro is2 h2 hpub
      simp only [Except.ok.injEq] at h2
      subst h2
      have := (string_length_pos _).2 hpub
      simp [this]
    · intro is2 h2 hpub hdock
      simp only [Except.ok.injEq] at h2
      subst h2
      have := (string_length_pos _).2 hdock
      simp [hpub, this]

/-- For the step over one image stream that has only a `DockerImageRepository`, the
resolver returns that registry and the tag. -/
theorem outputImageTagStep_resolver_result_witness :
    storeStep.Provides upperASCII
        = (some [("IMAGE_MY_CLI", storeStep.resolver)],
           some (StepLink.ExternalImageLink storeStep.config.To))
    ∧ (storeStep.resolver []).2 = ("registry.svc:5000/ci-op-1/stable:cli", none) :=
  ⟨by
      have h : storeStep.Provides upperASCII
          = (some [("IMAGE_" ++ upperASCII (replaceDashes storeStep.config.To.As),
              storeStep.resolver)], some (StepLink.ExternalImageLink storeStep.config.To)) := rfl
      rw [h]
      have hk : "IMAGE_" ++ upperASCII (replaceDashes storeStep.config.To.As)
          = "IMAGE_MY_CLI" := by decide
      rw [hk],
   (outputImageTagStep_resolver_result upperASCII storeStep []
      [("IMAGE_" ++ upperASCII (replaceDashes storeStep.config.To.As), storeStep.resolver)]
      (some (StepLink.ExternalImageLink storeStep.config.To))
      ("IMAGE_" ++ upperASCII (replaceDashes storeStep.config.To.As), storeStep.resolver)
      rfl (List.mem_singleton.2 rfl)).2.2.2
      { PublicDockerImageRepository := "",
        DockerImageRepository := "registry.svc:5000/ci-op-1/stable" }
      rfl rfl (by decide)⟩


/-! ## Properties of the cluster install test step -/

/-- C15. `e2eTestStep.Requires()` equals the `Requires()` of the wrapped step when
`config.Upgrade` is false; when `config.Upgrade` is true it is
`ReleasePayloadImageLink("initial")` followed by the `Requires()` of the wrapped step,
elements and order unchanged, so an upgrade test always depends on the initial release
payload image. -/
theorem e2eTestStep_Requires {σ : Type} (s : e2eTestStep σ) :
    (s.config.Upgrade = false → s.Requires = s.step.Requires)
    ∧ (s.config.Upgrade = true →
        s.Requires = StepLink.ReleasePayloadImageLink "initial" :: s.step.Requires
        ∧ StepLink.ReleasePayloadImageLink "initial" ∈ s.Requires) := by
  constructor
  · intro h
    simp [e2eTestStep.Requires, h]
  · intro h
    simp [e2eTestStep.Requires, h]

/-- C16. `E2ETestStep` never shadows an input that the user supplied: the override set it
passes on holds `JOB_NAME_SAFE`, with the value `testConfig.As`, if and only if the
template declares that parameter and `params.HasInput("JOB_NAME_SAFE")` is false; it holds
`IMAGE_INSTALLER`, with the value `stable-initial:installer`, if and only if
`config.Upgrade` is true and `params.HasInput("IMAGE_INSTALLER")` is false; and it holds
no other name. -/
theorem E2ETestStep_overrides (template : Template)
    (config : OpenshiftInstallerClusterTestConfiguration) (testConfig : TestStepConfiguration)
    (HasInput : String → Bool) :
    (E2ETestStep template config testConfig HasInput).overrides.lookup "JOB_NAME_SAFE"
        = (if (∃ p ∈ template.Parameters, p.Name = "JOB_NAME_SAFE")
              ∧ HasInput "JOB_NAME_SAFE" = false
           then some testConfig.As else none)
    ∧ (E2ETestStep template config testConfig HasInput).overrides.lookup "IMAGE_INSTALLER"
        = (if config.Upgrade = true ∧ HasInput "IMAGE_INSTALLER" = false
           then some "stable-initial:installer" else none)
    ∧ ∀ key, key ≠ "JOB_NAME_SAFE" → key ≠ "IMAGE_INSTALLER" →
        (E2ETestStep template config testConfig HasInput).overrides.lookup key = none := by
  have hJ : ("JOB_NAME_SAFE" : String) ≠ "IMAGE_INSTALLER" := by decide
  have hI : ("IMAGE_INSTALLER" : String) ≠ "JOB_NAME_SAFE" := by decide
  have key := lookup_E2ETestStep template config testConfig HasInput
  refine ⟨?_, ?_, ?_⟩
  · rw [key]
    simp only [hJ, false_and, if_false, true_and]
  · rw [key]
    simp only [hI, false_and, if_false, true_and]
  · intro k h1 h2
    rw [key]
    simp only [h1, h2, false_and, if_false]

/-- An upgrade test over `exampleTemplate`, with the user supplying `IMAGE_INSTALLER`:
`JOB_NAME_SAFE` is overridden, `IMAGE_INSTALLER` is not, and `NAMESPACE` is not. -/
theorem E2ETestStep_overrides_witness :
    (E2ETestStep exampleTemplate { ClusterProfile := "aws-2", Upgrade := true }
        { As := "e2e-aws", Commands := "make test" }
        (fun name => name == "IMAGE_INSTALLER")).overrides
      = [("JOB_NAME_SAFE", "e2e-aws")]
    ∧ (E2ETestStep exampleTemplate { ClusterProfile := "aws-2", Upgrade := true }
        { As := "e2e-aws", Commands := "make test" }
        (fun name => name == "IMAGE_INSTALLER")).overrides.lookup "NAMESPACE" = none :=
  ⟨by decide,
   (E2ETestStep_overrides exampleTemplate { ClusterProfile := "aws-2", Upgrade := true }
      { As := "e2e-aws", Commands := "make test" } (fun name => name == "IMAGE_INSTALLER")).2.2
      "NAMESPACE" (by decide) (by decide)⟩

/-! ## `stepListsEqual` -/

/-- C17 fails on the code. `stepListsEqual` returns true when the lists have the same length
and every element of `first` occurs in `second`: for `first = [cache, cache]` and
`second = [cache, inject]` it returns true although `inject` is not in `first` and `cache`
occurs twice in `first` and once in `second`, and with the arguments exchanged it returns
false, so it is not symmetric. -/
theorem stepListsEqual_not_same_elements :
    stepListsEqual [cacheConfig, cacheConfig] [cacheConfig, injectConfig] = true
    ∧ stepListsEqual [cacheConfig, injectConfig] [cacheConfig, cacheConfig] = false
    ∧ ¬ List.Perm [cacheConfig, cacheConfig] [cacheConfig, injectConfig]
    ∧ injectConfig ∉ [cacheConfig, cacheConfig]
    ∧ ∀ first second : List StepConfiguration,
        stepListsEqual first second = true
          ↔ first.length = second.length ∧ ∀ item ∈ first, item ∈ second := by
  refine ⟨by decide, by decide, ?_, by decide, ?_⟩
  · intro h
    have := h.subset (List.mem_cons_self _ _)
    have h2 : injectConfig ∈ [cacheConfig, cacheConfig] := h.symm.subset (by simp)
    revert h2
    decide
  · intro first second
    unfold stepListsEqual
    by_cases hl : first.length = second.length
    · simp [hl, allContained_iff]
    · simp [hl]


end CiOperator
